import Mathlib

/-!
Verification of the claude-ex code-intelligence engine against its
specification.  The definitions below are a shallow embedding of the
TypeScript source: the relational store (src/db/schema.ts), the import
resolver and indexer (src/indexer/index.ts), the exported-flag logic of
the parser (src/indexer/parser.ts), and the FTS query sanitizer of the
query engine.  External effects (the file system, the tree-sitter parse,
the FTS engine) are abstracted as explicit function parameters; machine
floating point is modelled by exact rationals.
-/

namespace Codex

/-! ## Rows of the relational store (src/db/schema.ts) -/

structure FileRow where
  id : Nat
  path : String
  hash : String
deriving Repr, DecidableEq

structure SymbolRow where
  id : Nat
  fileId : Nat
  name : String
  qualifiedName : Option String
  kind : String
  exported : Bool
deriving Repr, DecidableEq

structure EdgeRow where
  fromId : Nat
  toId : Nat
  kind : String
deriving Repr, DecidableEq

structure FileDepRow where
  fromFile : Nat
  toFile : Nat
  kind : String
  importName : String
deriving Repr, DecidableEq

structure RankingRow where
  symbolId : Nat
  pagerank : Rat
  inDegree : Nat
  outDegree : Nat
deriving Repr, DecidableEq

/-- The persistent store.  `nextFileId` and `nextSymbolId` model sqlite's
AUTOINCREMENT row ids (never reused). -/
structure DB where
  files : List FileRow
  symbols : List SymbolRow
  edges : List EdgeRow
  fileDeps : List FileDepRow
  rankings : List RankingRow
  nextFileId : Nat
  nextSymbolId : Nat
deriving Repr, DecidableEq

def emptyDB : DB :=
  { files := [], symbols := [], edges := [], fileDeps := [], rankings := [],
    nextFileId := 1, nextSymbolId := 1 }

/-! ## JavaScript Map (insertion-ordered association list) -/

def mapSet {α : Type} (m : List (String × α)) (k : String) (v : α) :
    List (String × α) :=
  match m with
  | [] => [(k, v)]
  | (k', v') :: rest =>
      if k' == k then (k, v) :: rest else (k', v') :: mapSet rest k v

def mapGet {α : Type} (m : List (String × α)) (k : String) : Option α :=
  match m with
  | [] => none
  | (k', v') :: rest => if k' == k then some v' else mapGet rest k

/-! ## Store operations (src/db/schema.ts) -/

/-- `getOrCreateFile` (schema.ts): returns the updated store, the file id
and the `changed` flag.  An existing row with the same content hash is
reported unchanged; a differing hash updates the row; a new path inserts
a fresh row. -/
def getOrCreateFile (db : DB) (path hash : String) : DB × Nat × Bool :=
  match db.files.find? (fun f => f.path == path) with
  | some f =>
      if f.hash == hash then (db, f.id, false)
      else
        ({ db with
            files := db.files.map (fun g =>
              if g.id == f.id then { g with hash := hash } else g) },
          f.id, true)
  | none =>
      let id := db.nextFileId
      ({ db with
          files := db.files ++ [{ id := id, path := path, hash := hash }],
          nextFileId := id + 1 },
        id, true)

/-- Ids of the symbols owned by a file (the subquery
`SELECT id FROM symbols WHERE file_id = ?`). -/
def fileSymbolIds (db : DB) (fileId : Nat) : List Nat :=
  (db.symbols.filter (fun s => s.fileId == fileId)).map (fun s => s.id)

/-- First DELETE of `clearFileData`: rankings of the file's symbols. -/
def clearRankingsStep (db : DB) (fileId : Nat) : DB :=
  let ids := fileSymbolIds db fileId
  { db with rankings := db.rankings.filter (fun r => ¬ ids.contains r.symbolId) }

/-- Second DELETE of `clearFileData`: edges with either endpoint among the
file's symbols. -/
def clearEdgesStep (db : DB) (fileId : Nat) : DB :=
  let ids := fileSymbolIds db fileId
  { db with
      edges := db.edges.filter (fun e =>
        ¬ (ids.contains e.fromId ∨ ids.contains e.toId)) }

/-- Third DELETE of `clearFileData`: the file's symbols. -/
def clearSymbolsStep (db : DB) (fileId : Nat) : DB :=
  { db with symbols := db.symbols.filter (fun s => ¬ s.fileId == fileId) }

/-- Fourth DELETE of `clearFileData`: file-deps whose source is the file. -/
def clearFileDepsStep (db : DB) (fileId : Nat) : DB :=
  { db with fileDeps := db.fileDeps.filter (fun d => ¬ d.fromFile == fileId) }

/-- `clearFileData` (schema.ts lines 608-613): the four DELETE statements
in source order. -/
def clearFileData (db : DB) (fileId : Nat) : DB :=
  clearFileDepsStep (clearSymbolsStep (clearEdgesStep (clearRankingsStep db fileId) fileId) fileId) fileId

/-- `insertSymbol`: appends a row with a fresh id and returns the id. -/
def insertSymbolRow (db : DB) (row : SymbolRow) : DB :=
  { db with symbols := db.symbols ++ [row], nextSymbolId := db.nextSymbolId + 1 }

/-- `insertEdge`: `INSERT OR IGNORE` keyed on (from, to, kind). -/
def insertEdge (db : DB) (fromId toId : Nat) (kind : String) : DB :=
  if db.edges.any (fun e => e.fromId == fromId && e.toId == toId && e.kind == kind) then db
  else { db with edges := db.edges ++ [{ fromId := fromId, toId := toId, kind := kind }] }

/-- `insertFileDep`: `INSERT OR IGNORE` keyed on (from, to, kind, name). -/
def insertFileDep (db : DB) (fromFile toFile : Nat) (kind importName : String) : DB :=
  if db.fileDeps.any (fun d =>
      d.fromFile == fromFile && d.toFile == toFile && d.kind == kind &&
      d.importName == importName) then db
  else
    { db with
        fileDeps := db.fileDeps ++
          [{ fromFile := fromFile, toFile := toFile, kind := kind,
             importName := importName }] }

/-- One file of the stale sweep: keep it when its path is valid, else
clear its data and delete its row. -/
def removeStaleStep (validPaths : List String) (acc : DB) (f : FileRow) : DB :=
  if validPaths.contains f.path then acc
  else
    let acc' := clearFileData acc f.id
    { acc' with files := acc'.files.filter (fun g => ¬ g.id == f.id) }

/-- `removeStaleFiles`: reads the file list once, then clears and deletes
every file whose path is not in the valid set. -/
def removeStaleFiles (db : DB) (validPaths : List String) : DB :=
  db.files.foldl (removeStaleStep validPaths) db

/-- `removeFile`: clears a file's data and deletes the file row. -/
def removeFile (db : DB) (path : String) : DB :=
  match db.files.find? (fun f => f.path == path) with
  | some f =>
      let db' := clearFileData db f.id
      { db' with files := db'.files.filter (fun g => ¬ g.id == f.id) }
  | none => db

/-! ## Resolver (src/indexer/index.ts, `resolveImportPath`)

The file system is abstracted as `existsOnDisk`; `rel` is the
root-relative joined candidate produced by the path arithmetic of
lines 24-26 (a pure function of the importing file and the specifier,
not probed itself). -/

def resolverExtensions : List String :=
  [".ts", ".tsx", ".js", ".jsx", ".py", ".rs", ".go", ""]

def resolverIndexFiles : List String :=
  ["/index.ts", "/index.tsx", "/index.js", "/index.jsx"]

/-- `resolveImportPath`: skip non-relative specifiers, then probe the
extension candidates, then the directory-index candidates. -/
def resolveImportPath (existsOnDisk : String → Bool) (rel : String)
    (importSource : String) : Option String :=
  if ¬ (importSource.startsWith "." || importSource.startsWith "/") then none
  else
    match resolverExtensions.find? (fun ext => existsOnDisk (rel ++ ext)) with
    | some ext => some (rel ++ ext)
    | none =>
        match resolverIndexFiles.find? (fun idx => existsOnDisk (rel ++ idx)) with
        | some idx => some (rel ++ idx)
        | none => none

/-- The probe list in the order stated by the spec: the eight extension
candidates, then the four directory-index candidates. -/
def resolveCandidates (rel : String) : List String :=
  (resolverExtensions.map (fun ext => rel ++ ext)) ++
    (resolverIndexFiles.map (fun idx => rel ++ idx))

/-- The resolver as the spec words it: package specifiers yield none, and
otherwise the first existing probe of `resolveCandidates` is returned. -/
def resolveImportPathSpec (existsOnDisk : String → Bool) (rel : String)
    (importSource : String) : Option String :=
  if importSource.startsWith "." || importSource.startsWith "/" then
    (resolveCandidates rel).find? existsOnDisk
  else none

/-! ## FTS query sanitizer (query engine, `sanitizeFts` / `search`) -/

/-- A JavaScript regex word character (`\w` without the unicode flag). -/
def isWordChar (c : Char) : Bool :=
  (('a' ≤ c) && (c ≤ 'z')) || (('A' ≤ c) && (c ≤ 'Z')) ||
    (('0' ≤ c) && (c ≤ '9')) || (c == '_')

/-- A whitespace character (`\s`), restricted to its ASCII members. -/
def isSpaceChar (c : Char) : Bool :=
  (c == ' ') || (c == '\t') || (c == '\n') || (c == '\r') ||
    (c == '\x0b') || (c == '\x0c')

/-- Splitting on whitespace runs, dropping empty fragments: the combined
effect of `.trim().split(/\s+/).filter(Boolean)`. -/
def splitWsAux (acc : List Char) : List Char → List String
  | [] => if acc.isEmpty then [] else [String.mk acc.reverse]
  | c :: rest =>
      if isSpaceChar c then
        if acc.isEmpty then splitWsAux [] rest
        else String.mk acc.reverse :: splitWsAux [] rest
      else splitWsAux (c :: acc) rest

/-- The token list of a query: every character that is neither a word
character nor whitespace is replaced by a space, then the string is split
on whitespace. -/
def ftsTokens (q : String) : List String :=
  splitWsAux []
    (q.toList.map (fun c => if isWordChar c || isSpaceChar c then c else ' '))

/-- A token wrapped in double quotes. -/
def quoteToken (t : String) : String := "\"" ++ t ++ "\""

/-- `sanitizeFts`: the empty string when no tokens remain, otherwise the
quoted tokens joined by " OR ". -/
def sanitizeFts (q : String) : String :=
  let tokens := ftsTokens q
  if tokens.isEmpty then ""
  else String.intercalate " OR " (tokens.map quoteToken)

/-- `search`, with the FTS engine abstracted as an oracle from the query
string to a result list: an empty sanitized query short-circuits to the
empty result without consulting the oracle. -/
def ftsSearch {α : Type} (ftsEngine : String → List α) (q : String) : List α :=
  let ftsQuery := sanitizeFts q
  if ftsQuery == "" then [] else ftsEngine ftsQuery

/-! ## Exported-flag logic (src/indexer/parser.ts, `isExported`)

A syntax-tree node is modelled by its type tag and optional `name` field;
the ancestor chain (parent first) replaces the parent pointers. -/

structure Node where
  type : String
  name : Option String
deriving Repr, DecidableEq

/-- `isExported` (parser.ts lines 149-165), over the node's ancestor
chain: an export-statement/declaration parent; or a decorated_definition
parent under such a node; or, for Python, a module parent and a name not
beginning with an underscore. -/
def isExported (language : String) (node : Node) (ancestors : List Node) : Bool :=
  match ancestors with
  | [] => false
  | parent :: rest =>
      if parent.type == "export_statement" || parent.type == "export_declaration" then
        true
      else if parent.type == "decorated_definition" &&
          (match rest with
           | pp :: _ => pp.type == "export_statement" || pp.type == "export_declaration"
           | [] => false) then
        true
      else if language == "python" && parent.type == "module" then
        match node.name with
        | some n => ! n.startsWith "_"
        | none => false
      else false

/-! ## Indexer inputs (the per-file parse results)

`parseFile` runs tree-sitter, which is external; a `FileInput` carries the
relative path, the content digest, and the structured parse result the
indexer consumes (parser.ts `ExtractedSymbol` / `ExtractedImport` /
`ExtractedCall`, restricted to the fields the indexer reads). -/

structure ParsedSymbol where
  name : String
  qualifiedName : Option String
  kind : String
  exported : Bool
deriving Repr, DecidableEq

structure ParsedImport where
  source : String
  names : List String
deriving Repr, DecidableEq

structure ParsedCall where
  callerSymbol : String
  calledName : String
deriving Repr, DecidableEq

structure FileInput where
  path : String
  hash : String
  symbols : List ParsedSymbol
  imports : List ParsedImport
  calls : List ParsedCall
deriving Repr, DecidableEq

/-- An import resolver: from the importing file's relative path and the
raw specifier to the resolved relative path, abstracting
`resolveImportPath`'s disk probes inside `indexProject`. -/
abbrev Resolver := String → String → Option String

/-- The per-file in-memory symbol table (`name -> symbol id`, also keyed
by qualified name). -/
abbrev SymTable := List (String × Nat)

/-! ## Indexer (src/indexer/index.ts) -/

/-- One parsed symbol: insert the row under a fresh id and key the
per-file table by name and qualified name (index.ts lines 100-113). -/
def insertSymbolsStep (fileId : Nat) (st : DB × SymTable) (s : ParsedSymbol) :
    DB × SymTable :=
  let id := st.1.nextSymbolId
  let db' := insertSymbolRow st.1
    { id := id, fileId := fileId, name := s.name,
      qualifiedName := s.qualifiedName, kind := s.kind, exported := s.exported }
  let m := mapSet st.2 s.name id
  let m := match s.qualifiedName with
    | some q => mapSet m q id
    | none => m
  (db', m)

/-- Insert the parsed symbols of a changed file, building the per-file
symbol table keyed by both name and qualified name (index.ts lines
100-115). -/
def insertParsedSymbols (db : DB) (fileId : Nat) (syms : List ParsedSymbol) :
    DB × SymTable :=
  syms.foldl (insertSymbolsStep fileId) (db, [])

/-- For an unchanged file, load its existing exported symbols into the
in-memory table (index.ts lines 81-91): only rows with `exported` set
contribute, keyed by name and qualified name. -/
def buildSymbolMapFromExisting (db : DB) (fileId : Nat) : SymTable :=
  (db.symbols.filter (fun s => s.fileId == fileId)).foldl (fun m s =>
    if s.exported then
      let m := mapSet m s.name s.id
      match s.qualifiedName with
      | some q => mapSet m q s.id
      | none => m
    else m) []

/-- The comma-joined import name, `*` when no named bindings exist. -/
def importNameOf (names : List String) : String :=
  if names.isEmpty then "*" else String.intercalate "," names

/-- Resolve a changed file's imports (index.ts lines 120-132): each
resolvable import inserts a FileDep when the target file is already in the
store, and is remembered for the cross-file pass whether or not the
FileDep was inserted. -/
def importStep (resolve : Resolver) (fileId : Nat) (relPath : String)
    (st : DB × List (String × List String)) (imp : ParsedImport) :
    DB × List (String × List String) :=
  match resolve relPath imp.source with
  | some resolved =>
      ((match st.1.files.find? (fun f => f.path == resolved) with
        | some toFile =>
            insertFileDep st.1 fileId toFile.id "import" (importNameOf imp.names)
        | none => st.1),
       st.2 ++ [(resolved, imp.names)])
  | none => st

def processImports (resolve : Resolver) (db : DB) (fileId : Nat)
    (relPath : String) (imps : List ParsedImport) :
    DB × List (String × List String) :=
  imps.foldl (importStep resolve fileId relPath) (db, [])

/-- Intra-file call edges (index.ts lines 136-143): a `calls` edge when
both the caller and the called name hit the same file's table and the ids
differ. -/
def callStep (table : SymTable) (db : DB) (call : ParsedCall) : DB :=
  match mapGet table call.callerSymbol, mapGet table call.calledName with
  | some callerId, some calledId =>
      if callerId ≠ calledId then insertEdge db callerId calledId "calls" else db
  | _, _ => db

def processCalls (db : DB) (table : SymTable) (calls : List ParsedCall) : DB :=
  calls.foldl (callStep table) db

/-- The in-memory state of a full index run: the store plus the
`file -> symbol table` and `file -> resolved imports` maps and the
indexed/skipped counters. -/
structure IndexState where
  db : DB
  fileSymbolMap : List (String × SymTable)
  fileImportMap : List (String × List (String × List String))
  indexedFiles : Nat
  skippedFiles : Nat
deriving Repr, DecidableEq

/-- One iteration of the per-file loop of `indexProject` (index.ts lines
63-149): upsert the file; an unchanged file only loads its exported
symbols into the in-memory table and counts as skipped; a changed file is
cleared, its parse inserted, its imports resolved and its intra-file call
edges emitted. -/
def processFile (resolve : Resolver) (st : IndexState) (input : FileInput) :
    IndexState :=
  let r := getOrCreateFile st.db input.path input.hash
  let db := r.1
  let fileId := r.2.1
  let changed := r.2.2
  if ¬ changed then
    let table := buildSymbolMapFromExisting db fileId
    { st with
        db := db,
        fileSymbolMap := mapSet st.fileSymbolMap input.path table,
        skippedFiles := st.skippedFiles + 1 }
  else
    let db := clearFileData db fileId
    let p := insertParsedSymbols db fileId input.symbols
    let q := processImports resolve p.1 fileId input.path input.imports
    let db := processCalls q.1 p.2 input.calls
    { db := db,
      fileSymbolMap := mapSet st.fileSymbolMap input.path p.2,
      fileImportMap := mapSet st.fileImportMap input.path q.2,
      indexedFiles := st.indexedFiles + 1,
      skippedFiles := st.skippedFiles }

/-- The in-memory state at the start of a full index run. -/
def initIndexState (db0 : DB) : IndexState :=
  { db := db0, fileSymbolMap := [], fileImportMap := [],
    indexedFiles := 0, skippedFiles := 0 }

/-- The per-file phase of a full index run. -/
def buildPhase (resolve : Resolver) (inputs : List FileInput) (db0 : DB) :
    IndexState :=
  inputs.foldl (processFile resolve) (initIndexState db0)

/-- One entry of the importing file's table: emit a `references` edge to
the target unless it would be a self-edge (index.ts lines 167-171). -/
def emitRefStep (targetId : Nat) (db : DB) (entry : String × Nat) : DB :=
  if entry.2 ≠ targetId then insertEdge db entry.2 targetId "references" else db

/-- Emit `references` edges from every entry of the importing file's table
to the target, skipping self-edges (index.ts lines 167-172). -/
def emitReferenceEdges (db : DB) (importingSymbols : SymTable) (targetId : Nat) :
    DB :=
  importingSymbols.foldl (emitRefStep targetId) db

/-- One imported name: look it up in the target file's table and emit the
`references` edges on a hit (index.ts lines 163-174). -/
def crossEmitForName (importingSymbols exportedSymbols : SymTable) (db : DB)
    (importedName : String) : DB :=
  match mapGet exportedSymbols importedName with
  | some targetId => emitReferenceEdges db importingSymbols targetId
  | none => db

/-- One resolved import: look up the target file's in-memory table and
process every imported name (index.ts lines 159-175). -/
def crossEmitForImport (fsm : List (String × SymTable))
    (importingSymbols : SymTable) (db : DB) (imp : String × List String) : DB :=
  match mapGet fsm imp.1 with
  | none => db
  | some exportedSymbols =>
      imp.2.foldl (crossEmitForName importingSymbols exportedSymbols) db

/-- One importing file of the cross-file pass (index.ts lines 155-176). -/
def crossEmitForFile (fsm : List (String × SymTable)) (db : DB)
    (entry : String × List (String × List String)) : DB :=
  match mapGet fsm entry.1 with
  | none => db
  | some importingSymbols =>
      entry.2.foldl (crossEmitForImport fsm importingSymbols) db

/-- The cross-file resolution pass (index.ts lines 154-176): for each
changed file's resolved imports, look the imported names up in the target
file's in-memory table and emit `references` edges from every symbol of
the importing file. -/
def crossFilePass (st : IndexState) : DB :=
  st.fileImportMap.foldl (crossEmitForFile st.fileSymbolMap) st.db

/-! ## PageRank (src/indexer/index.ts, `computePageRank`)

Ranks are exact rationals in place of IEEE doubles; the algorithmic
structure (adjacency construction, the iteration, the rankings rewrite)
follows the source line by line. -/

/-- `idToIdx`: the compact index of a symbol id in the id list. -/
def idxOf (ids : List Nat) (id : Nat) : Option Nat :=
  match ids with
  | [] => none
  | x :: rest => if x == id then some 0 else (idxOf rest id).map (fun i => i + 1)

/-- The edge list mapped to compact index pairs, dropping edges whose
endpoints are not in the symbol table (index.ts lines 290-299). -/
def validEdgePairs (ids : List Nat) (edges : List EdgeRow) : List (Nat × Nat) :=
  edges.filterMap (fun e =>
    match idxOf ids e.fromId, idxOf ids e.toId with
    | some f, some t => some (f, t)
    | _, _ => none)

/-- The outgoing adjacency lists, in edge order. -/
def outgoingLists (ids : List Nat) (edges : List EdgeRow) : List (List Nat) :=
  (List.range ids.length).map (fun i =>
    ((validEdgePairs ids edges).filter (fun p => p.1 == i)).map (fun p => p.2))

/-- The incoming adjacency lists, in edge order. -/
def incomingLists (ids : List Nat) (edges : List EdgeRow) : List (List Nat) :=
  (List.range ids.length).map (fun i =>
    ((validEdgePairs ids edges).filter (fun p => p.2 == i)).map (fun p => p.1))

/-- The damping factor `d = 0.85`. -/
def damping : Rat := 85 / 100

/-- Add `x` to the rank cell `j` for every `j` in `js` (the successor
loop / the dangling distribution loop). -/
def addToCells (x : Rat) (js : List Nat) (acc : List Rat) : List Rat :=
  js.foldl (fun acc j => acc.set j (acc.getD j 0 + x)) acc

/-- The body of the node loop: a node with successors distributes
`d * r_i / outdeg(i)` along its outgoing lists; a dangling node
distributes `d * r_i / n` to every cell. -/
def prNodeStep (outgoing : List (List Nat)) (r : List Rat) (n : Nat)
    (acc : List Rat) (i : Nat) : List Rat :=
  if (outgoing.getD i []).length > 0 then
    addToCells (damping * (r.getD i 0 / (outgoing.getD i []).length))
      (outgoing.getD i []) acc
  else
    addToCells (damping * (r.getD i 0 / n)) (List.range n) acc

/-- One PageRank iteration as the source computes it: fill the new vector
with `(1-d)/n`, then fold the node loop over all nodes. -/
def prStep (n : Nat) (outgoing : List (List Nat)) (r : List Rat) : List Rat :=
  (List.range n).foldl (prNodeStep outgoing r n)
    (List.replicate n ((1 - damping) / n))

/-- The rank vector after the 20 power iterations, from the uniform
initial vector. -/
def prRankVector (n : Nat) (outgoing : List (List Nat)) : List Rat :=
  Nat.iterate (prStep n outgoing) 20 (List.replicate n (1 / (n : Rat)))

/-- `computePageRank`: no-op on an empty symbol table; otherwise replace
the rankings table with one row per symbol carrying its rank, in-degree
and out-degree. -/
def computePageRank (db : DB) : DB :=
  let ids := db.symbols.map (fun s => s.id)
  if ids.isEmpty then db
  else
    let n := ids.length
    let outgoing := outgoingLists ids db.edges
    let incoming := incomingLists ids db.edges
    let r := prRankVector n outgoing
    { db with
        rankings := (List.range n).map (fun i =>
          { symbolId := ids.getD i 0, pagerank := r.getD i 0,
            inDegree := (incoming.getD i []).length,
            outDegree := (outgoing.getD i []).length }) }

/-- `indexProject` (index.ts lines 46-194), store effect only: the
per-file phase, the stale-file removal, the cross-file pass (all inside
the outer transaction), then the PageRank rewrite. -/
def indexProjectDB (resolve : Resolver) (inputs : List FileInput) (db0 : DB) :
    DB :=
  let st := buildPhase resolve inputs db0
  let db1 := removeStaleFiles st.db (inputs.map (fun i => i.path))
  let db2 := crossFilePass { st with db := db1 }
  computePageRank db2

/-- The state `indexProject` passes to the cross-file pass: the in-memory
maps of the per-file phase over the store after stale-file removal. -/
def preCrossState (resolve : Resolver) (inputs : List FileInput) (db0 : DB) :
    IndexState :=
  let st := buildPhase resolve inputs db0
  { st with db := removeStaleFiles st.db (inputs.map (fun i => i.path)) }

/-- `indexProject` with its per-run counters (`indexedFiles`,
`skippedFiles`). -/
def indexProject (resolve : Resolver) (inputs : List FileInput) (db0 : DB) :
    DB × Nat × Nat :=
  let st := buildPhase resolve inputs db0
  (indexProjectDB resolve inputs db0, st.indexedFiles, st.skippedFiles)

/-! ## Single-file re-index (src/indexer/index.ts, `reindexFile`) -/

/-- `reindexFile` for a file present and readable on disk: upsert, stop if
the digest is unchanged, otherwise clear and rebuild the file's symbols,
file-deps and intra-file call edges.  No cross-file pass and no PageRank
run. -/
def reindexFileExisting (resolve : Resolver) (db : DB) (input : FileInput) : DB :=
  let r := getOrCreateFile db input.path input.hash
  let db := r.1
  let fileId := r.2.1
  let changed := r.2.2
  if ¬ changed then db
  else
    let db := clearFileData db fileId
    let p := insertParsedSymbols db fileId input.symbols
    let q := processImports resolve p.1 fileId input.path input.imports
    processCalls q.1 p.2 input.calls

/-- `reindexFile` including the missing-file branch (`remove_file`). -/
def reindexFile (resolve : Resolver) (existsOnDisk : Bool) (db : DB)
    (input : FileInput) : DB :=
  if existsOnDisk then reindexFileExisting resolve db input
  else removeFile db input.path

/-! ## Statement-level trace of `reindexFile`

`reindexFile` issues its statements directly on the connection, with no
enclosing transaction (in contrast to `indexProject`, whose per-file loop
runs inside `db.transaction`).  Each statement commits individually, so a
failure after `k` statements leaves the first `k` applied.  `Mutation`
is one committed statement; `reindexFileTrace` is the sequence the
function issues for a given store and input. -/

inductive Mutation where
  | insFile (row : FileRow)
  | updateFileHash (fileId : Nat) (hash : String)
  | clearRankings (fileId : Nat)
  | clearEdges (fileId : Nat)
  | clearSymbols (fileId : Nat)
  | clearFileDeps (fileId : Nat)
  | insSymbol (row : SymbolRow)
  | insFileDep (fromFile toFile : Nat) (kind importName : String)
  | insEdge (fromId toId : Nat) (kind : String)
deriving Repr, DecidableEq

def applyMutation (db : DB) (m : Mutation) : DB :=
  match m with
  | .insFile row =>
      { db with files := db.files ++ [row], nextFileId := db.nextFileId + 1 }
  | .updateFileHash fileId hash =>
      { db with
          files := db.files.map (fun g =>
            if g.id == fileId then { g with hash := hash } else g) }
  | .clearRankings fileId => clearRankingsStep db fileId
  | .clearEdges fileId => clearEdgesStep db fileId
  | .clearSymbols fileId => clearSymbolsStep db fileId
  | .clearFileDeps fileId => clearFileDepsStep db fileId
  | .insSymbol row => insertSymbolRow db row
  | .insFileDep fromFile toFile kind importName =>
      insertFileDep db fromFile toFile kind importName
  | .insEdge fromId toId kind => insertEdge db fromId toId kind

/-- The INSERT statements for the parsed symbols, with the AUTOINCREMENT
ids they receive. -/
def symbolInsertTrace (fileId startId : Nat) : List ParsedSymbol → List Mutation
  | [] => []
  | s :: rest =>
      Mutation.insSymbol
        { id := startId, fileId := fileId, name := s.name,
          qualifiedName := s.qualifiedName, kind := s.kind,
          exported := s.exported } :: symbolInsertTrace fileId (startId + 1) rest

/-- The committed-statement sequence of `reindexFile` on a readable file:
the file upsert, the four DELETEs of `clearFileData`, the symbol INSERTs,
the file-dep INSERTs, and the intra-file edge INSERTs.  An unchanged
digest issues no statement. -/
def reindexFileTrace (resolve : Resolver) (db0 : DB) (input : FileInput) :
    List Mutation :=
  let head : Option (List Mutation × Nat) :=
    match db0.files.find? (fun f => f.path == input.path) with
    | some row =>
        if row.hash == input.hash then none
        else some ([Mutation.updateFileHash row.id input.hash], row.id)
    | none =>
        some ([Mutation.insFile
          { id := db0.nextFileId, path := input.path, hash := input.hash }],
          db0.nextFileId)
  match head with
  | none => []
  | some (muts0, fid) =>
      let clearMuts := [Mutation.clearRankings fid, Mutation.clearEdges fid,
        Mutation.clearSymbols fid, Mutation.clearFileDeps fid]
      let db1 := (muts0 ++ clearMuts).foldl applyMutation db0
      let p := insertParsedSymbols db1 fid input.symbols
      let depMuts := input.imports.filterMap (fun imp =>
        (resolve input.path imp.source).bind (fun resolved =>
          (p.1.files.find? (fun f => f.path == resolved)).map (fun toFile =>
            Mutation.insFileDep fid toFile.id "import" (importNameOf imp.names))))
      let edgeMuts := input.calls.filterMap (fun call =>
        match mapGet p.2 call.callerSymbol, mapGet p.2 call.calledName with
        | some a, some b =>
            if a ≠ b then some (Mutation.insEdge a b "calls") else none
        | _, _ => none)
      muts0 ++ clearMuts ++ symbolInsertTrace fid db0.nextSymbolId input.symbols ++
        depMuts ++ edgeMuts

/-- The store state observed when the call fails after its first `k`
statements: the prefix is committed, nothing is rolled back. -/
def stateAfterPrefix (resolve : Resolver) (db0 : DB) (input : FileInput)
    (k : Nat) : DB :=
  ((reindexFileTrace resolve db0 input).take k).foldl applyMutation db0

/-! ## The PageRank iteration as the claim words it -/

/-- The amount node `i` adds to cell `j` in one iteration: for a node
with out-degree greater than zero, `0.85 * r_i / outdeg(i)` once per
occurrence of `j` among its successors; for a dangling node,
`0.85 * r_i / n`. -/
def prContribution (r : List Rat) (outgoing : List (List Nat)) (n i j : Nat) :
    Rat :=
  if (outgoing.getD i []).length > 0 then
    damping * (r.getD i 0 / (outgoing.getD i []).length)
      * (((outgoing.getD i []).filter (fun x => x == j)).length : Rat)
  else damping * (r.getD i 0 / n)

/-- One iteration as the claim states it: every new rank starts at
`0.15/n` and receives the contribution of every node. -/
def prStepSpec (n : Nat) (outgoing : List (List Nat)) (r : List Rat) :
    List Rat :=
  (List.range n).map (fun j =>
    (15 / 100 : Rat) / n +
      ((List.range n).map (fun i => prContribution r outgoing n i j)).sum)

/-- Twenty iterations of the claim's update from the uniform vector. -/
def prRankVectorSpec (n : Nat) (outgoing : List (List Nat)) : List Rat :=
  Nat.iterate (prStepSpec n outgoing) 20 (List.replicate n (1 / (n : Rat)))

end Codex

namespace Codex

/-! # Theorems -/

/-- C5.  `clear_file_data(file_id)` deletes, in source order, exactly the
rankings of the file's symbols, every edge with either endpoint among
them, the symbols themselves, and the file-deps whose source is the file;
the files table (and hence every file-dep whose target is the file, and
every row of other files) is characterized by the filters below. -/
theorem clearFileData_exact (db : DB) (fileId : Nat) :
    (clearFileData db fileId).rankings
        = db.rankings.filter (fun r => ¬ (fileSymbolIds db fileId).contains r.symbolId)
      ∧ (clearFileData db fileId).edges
        = db.edges.filter (fun e =>
            ¬ ((fileSymbolIds db fileId).contains e.fromId
              ∨ (fileSymbolIds db fileId).contains e.toId))
      ∧ (clearFileData db fileId).symbols
        = db.symbols.filter (fun s => ¬ s.fileId == fileId)
      ∧ (clearFileData db fileId).fileDeps
        = db.fileDeps.filter (fun d => ¬ d.fromFile == fileId)
      ∧ (clearFileData db fileId).files = db.files := by
  refine ⟨rfl, rfl, rfl, rfl, rfl⟩

/-- C7.  The resolver returns none on package specifiers (those starting
with neither `.` nor `/`), and otherwise the first existing probe of the
ordered candidate list: the eight extension candidates, then the four
directory-index candidates. -/
theorem resolveImportPath_eq_spec (existsOnDisk : String → Bool)
    (rel importSource : String) :
    resolveImportPath existsOnDisk rel importSource
      = resolveImportPathSpec existsOnDisk rel importSource := by
  unfold resolveImportPath resolveImportPathSpec resolveCandidates
  by_cases h : importSource.startsWith "." || importSource.startsWith "/"
  · simp only [h, if_true, List.find?_append, List.find?_map, Function.comp_def]
    cases hext : resolverExtensions.find? (fun ext => existsOnDisk (rel ++ ext)) with
    | some ext => simp [hext]
    | none =>
        cases hidx : resolverIndexFiles.find? (fun idx => existsOnDisk (rel ++ idx)) with
        | some idx => simp [hext, hidx]
        | none => simp [hext, hidx]
  · simp [h]

theorem intercalate_go_length (s : String) :
    ∀ (l : List String) (acc : String),
      acc.length ≤ (String.intercalate.go acc s l).length := by
  intro l
  induction l with
  | nil => intro acc; simp [String.intercalate.go]
  | cons a as ih =>
      intro acc
      calc acc.length ≤ (acc ++ s ++ a).length := by
            simp only [String.length_append]; omega
        _ ≤ _ := by simpa [String.intercalate.go] using ih (acc ++ s ++ a)

theorem intercalate_quoted_ne_empty (t : String) (ts : List String) :
    String.intercalate " OR " (quoteToken t :: ts.map quoteToken) ≠ "" := by
  intro hcontra
  have h1 : (quoteToken t).length ≤
      (String.intercalate " OR " (quoteToken t :: ts.map quoteToken)).length := by
    simpa [String.intercalate] using
      intercalate_go_length " OR " (ts.map quoteToken) (quoteToken t)
  have h2 : (quoteToken t).length = "\"".length + t.length + "\"".length := by
    simp [quoteToken, String.length_append]
  have h3 : "\"".length = 1 := by decide
  rw [hcontra] at h1
  simp at h1
  omega

/-- C8.  `search` tokenizes the query by replacing every character that
is neither a word character nor whitespace with a space and splitting on
whitespace; with no tokens it returns empty for every FTS oracle (the
index is not queried), and otherwise it queries the oracle with the
tokens double-quoted and joined by " OR ". -/
theorem ftsSearch_eq_spec {α : Type} (ftsEngine : String → List α) (q : String) :
    ftsSearch ftsEngine q =
      (if ftsTokens q = [] then []
       else ftsEngine (String.intercalate " OR " ((ftsTokens q).map quoteToken))) := by
  unfold ftsSearch sanitizeFts
  cases htk : ftsTokens q with
  | nil => simp
  | cons t ts =>
      have hne := intercalate_quoted_ne_empty t ts
      simp [hne]

/-- C9.  For an emitted symbol (a node with a `name`), the parser's
exported flag is true iff its parent is an export statement/declaration,
or its parent is a `decorated_definition` under such a node, or the
language is Python, the parent is the module root, and the name does not
begin with an underscore. -/
theorem isExported_iff (lang : String) (node parent : Node) (rest : List Node)
    (nm : String) (hname : node.name = some nm) :
    (isExported lang node (parent :: rest) = true ↔
      ((parent.type = "export_statement" ∨ parent.type = "export_declaration")
        ∨ (parent.type = "decorated_definition"
            ∧ ∃ pp rest2, rest = pp :: rest2
              ∧ (pp.type = "export_statement" ∨ pp.type = "export_declaration"))
        ∨ (lang = "python" ∧ parent.type = "module" ∧ ¬ nm.startsWith "_"))) := by
  cases rest with
  | nil =>
      by_cases h1 : parent.type = "export_statement" <;>
        by_cases h2 : parent.type = "export_declaration" <;>
          by_cases h3 : parent.type = "decorated_definition" <;>
            by_cases h4 : lang = "python" <;>
              by_cases h5 : parent.type = "module" <;>
                simp [isExported, h1, h2, h3, h4, h5, hname]
  | cons pp rest2 =>
      by_cases h1 : parent.type = "export_statement" <;>
        by_cases h2 : parent.type = "export_declaration" <;>
          by_cases h3 : parent.type = "decorated_definition" <;>
            by_cases h4 : lang = "python" <;>
              by_cases h5 : parent.type = "module" <;>
                by_cases h6 : pp.type = "export_statement" <;>
                  by_cases h7 : pp.type = "export_declaration" <;>
                    simp [isExported, h1, h2, h3, h4, h5, h6, h7, hname]

/-- Witness for C9: an exported TypeScript function declaration directly
under an `export_statement`. -/
theorem isExported_iff_witness :
    isExported "typescript"
      { type := "function_declaration", name := some "foo" }
      [{ type := "export_statement", name := none }] = true :=
  (isExported_iff "typescript"
    { type := "function_declaration", name := some "foo" }
    { type := "export_statement", name := none } [] "foo" rfl).mpr
    (Or.inl (Or.inl rfl))

/-! ## Fold invariants for the cross-file pass -/

theorem foldl_preserve {β : Type} (P : DB → Prop) (step : DB → β → DB)
    (mono : ∀ db x, P db → P (step db x)) :
    ∀ (l : List β) (db : DB), P db → P (l.foldl step db) := by
  intro l
  induction l with
  | nil => intro db h; exact h
  | cons a as ih => intro db h; exact ih (step db a) (mono db a h)

theorem foldl_establish {β : Type} (P : DB → Prop) (step : DB → β → DB)
    (mono : ∀ db x, P db → P (step db x)) :
    ∀ (l : List β) (db : DB) (x : β), x ∈ l → (∀ db, P (step db x)) →
      P (l.foldl step db) := by
  intro l
  induction l with
  | nil => intro db x hx; cases hx
  | cons a as ih =>
      intro db x hx hest
      rcases List.mem_cons.mp hx with h | hmem
      · subst h; exact foldl_preserve P step mono as (step db x) (hest db)
      · exact ih (step db a) x hmem hest

theorem insertEdge_mono (db : DB) (a b : Nat) (k : String) (e : EdgeRow)
    (h : e ∈ db.edges) : e ∈ (insertEdge db a b k).edges := by
  unfold insertEdge
  split
  · exact h
  · exact List.mem_append_left _ h

theorem insertEdge_mem_self (db : DB) (a b : Nat) (k : String) :
    ({ fromId := a, toId := b, kind := k } : EdgeRow) ∈ (insertEdge db a b k).edges := by
  unfold insertEdge
  split
  · rename_i h
    rcases List.any_eq_true.mp h with ⟨e, he, hpred⟩
    have : e = { fromId := a, toId := b, kind := k } := by
      cases e
      simp only [Bool.and_eq_true, beq_iff_eq] at hpred
      simp [hpred.1.1, hpred.1.2, hpred.2]
    rw [← this]
    exact he
  · exact List.mem_append_right _ (List.mem_singleton.mpr rfl)

theorem emitRefStep_mono (tgt : Nat) (e : EdgeRow) (db : DB) (x : String × Nat)
    (h : e ∈ db.edges) : e ∈ (emitRefStep tgt db x).edges := by
  unfold emitRefStep
  split
  · exact insertEdge_mono db x.2 tgt "references" e h
  · exact h

theorem emitReferenceEdges_mono (table : SymTable) (tgt : Nat) (e : EdgeRow)
    (db : DB) (h : e ∈ db.edges) : e ∈ (emitReferenceEdges db table tgt).edges :=
  foldl_preserve (fun db => e ∈ db.edges) (emitRefStep tgt)
    (emitRefStep_mono tgt e) table db h

theorem emitReferenceEdges_mem (table : SymTable) (tgt : Nat) (key : String)
    (src : Nat) (hmem : (key, src) ∈ table) (hne : src ≠ tgt) (db : DB) :
    ({ fromId := src, toId := tgt, kind := "references" } : EdgeRow)
      ∈ (emitReferenceEdges db table tgt).edges := by
  refine foldl_establish _ (emitRefStep tgt) (emitRefStep_mono tgt _)
    table db (key, src) hmem (fun db => ?_)
  unfold emitRefStep
  rw [if_pos hne]
  exact insertEdge_mem_self db src tgt "references"

theorem crossEmitForName_mono (it et : SymTable) (e : EdgeRow) (db : DB)
    (nm : String) (h : e ∈ db.edges) :
    e ∈ (crossEmitForName it et db nm).edges := by
  unfold crossEmitForName
  cases mapGet et nm with
  | some tgt => exact emitReferenceEdges_mono it tgt e db h
  | none => exact h

theorem crossEmitForImport_mono (fsm : List (String × SymTable)) (it : SymTable)
    (e : EdgeRow) (db : DB) (imp : String × List String) (h : e ∈ db.edges) :
    e ∈ (crossEmitForImport fsm it db imp).edges := by
  unfold crossEmitForImport
  cases mapGet fsm imp.1 with
  | some et =>
      exact foldl_preserve (fun db => e ∈ db.edges) (crossEmitForName it et)
        (crossEmitForName_mono it et e) imp.2 db h
  | none => exact h

theorem crossEmitForFile_mono (fsm : List (String × SymTable)) (e : EdgeRow)
    (db : DB) (entry : String × List (String × List String)) (h : e ∈ db.edges) :
    e ∈ (crossEmitForFile fsm db entry).edges := by
  unfold crossEmitForFile
  cases mapGet fsm entry.1 with
  | some it =>
      exact foldl_preserve (fun db => e ∈ db.edges) (crossEmitForImport fsm it)
        (crossEmitForImport_mono fsm it e) entry.2 db h
  | none => exact h

/-- Any edge survives the cross-file pass. -/
theorem crossFilePass_mono (st : IndexState) (e : EdgeRow)
    (h : e ∈ st.db.edges) : e ∈ (crossFilePass st).edges :=
  foldl_preserve (fun db => e ∈ db.edges) (crossEmitForFile st.fileSymbolMap)
    (crossEmitForFile_mono st.fileSymbolMap e) st.fileImportMap st.db h

/-- The cross-file pass emits the `references` edge for every hit of an
imported name, from every entry of the importing file's table. -/
theorem crossFilePass_mem (st : IndexState)
    (filePath resolved importedName key : String)
    (impList : List (String × List String)) (names : List String)
    (importingTable targetTable : SymTable) (src tgt : Nat)
    (hfi : (filePath, impList) ∈ st.fileImportMap)
    (hims : mapGet st.fileSymbolMap filePath = some importingTable)
    (himp : (resolved, names) ∈ impList)
    (htgt : mapGet st.fileSymbolMap resolved = some targetTable)
    (hn : importedName ∈ names)
    (ht : mapGet targetTable importedName = some tgt)
    (hsrc : (key, src) ∈ importingTable)
    (hne : src ≠ tgt) :
    ({ fromId := src, toId := tgt, kind := "references" } : EdgeRow)
      ∈ (crossFilePass st).edges := by
  unfold crossFilePass
  refine foldl_establish _ (crossEmitForFile st.fileSymbolMap)
    (crossEmitForFile_mono st.fileSymbolMap _) st.fileImportMap st.db
    (filePath, impList) hfi (fun db => ?_)
  unfold crossEmitForFile
  rw [hims]
  refine foldl_establish _ (crossEmitForImport st.fileSymbolMap importingTable)
    (crossEmitForImport_mono st.fileSymbolMap importingTable _) impList db
    (resolved, names) himp (fun db => ?_)
  unfold crossEmitForImport
  rw [htgt]
  refine foldl_establish _ (crossEmitForName importingTable targetTable)
    (crossEmitForName_mono importingTable targetTable _) names db
    importedName hn (fun db => ?_)
  unfold crossEmitForName
  rw [ht]
  exact emitReferenceEdges_mem importingTable tgt key src hsrc hne db

theorem computePageRank_edges (db : DB) : (computePageRank db).edges = db.edges := by
  by_cases h : (db.symbols.map (fun s => s.id)).isEmpty
  · simp [computePageRank, h]
  · simp [computePageRank, h]

theorem indexProjectDB_eq_phases (resolve : Resolver) (inputs : List FileInput)
    (db0 : DB) :
    indexProjectDB resolve inputs db0
      = computePageRank (crossFilePass (preCrossState resolve inputs db0)) := rfl

/-- C1 (amended).  During the cross-file pass, if the imported name `n`
maps to symbol id `tgt` in the target file's in-memory symbol table (the
table holds all symbols of a file re-parsed in this run, and only the
exported symbols of an unchanged file), then a `references` edge from
every symbol id in the importing file's table to `tgt` is present after
the full index, except a self-edge. -/
theorem indexProject_crossFile_references (resolve : Resolver)
    (inputs : List FileInput) (db0 : DB)
    (filePath resolved importedName key : String)
    (impList : List (String × List String)) (names : List String)
    (importingTable targetTable : SymTable) (src tgt : Nat)
    (hfi : (filePath, impList) ∈ (preCrossState resolve inputs db0).fileImportMap)
    (hims : mapGet (preCrossState resolve inputs db0).fileSymbolMap filePath
      = some importingTable)
    (himp : (resolved, names) ∈ impList)
    (htgt : mapGet (preCrossState resolve inputs db0).fileSymbolMap resolved
      = some targetTable)
    (hn : importedName ∈ names)
    (ht : mapGet targetTable importedName = some tgt)
    (hsrc : (key, src) ∈ importingTable)
    (hne : src ≠ tgt) :
    ({ fromId := src, toId := tgt, kind := "references" } : EdgeRow)
      ∈ (indexProjectDB resolve inputs db0).edges := by
  rw [indexProjectDB_eq_phases, computePageRank_edges]
  exact crossFilePass_mem (preCrossState resolve inputs db0) filePath resolved
    importedName key impList names importingTable targetTable src tgt
    hfi hims himp htgt hn ht hsrc hne

/-- A two-file repository in which `a.ts` imports the name `bar` from
`b.ts`, and `bar` is a NON-exported symbol of `b.ts`. -/
def c1Resolve : Resolver := fun f s =>
  if f == "a.ts" && s == "./b" then some "b.ts" else none

def c1Inputs : List FileInput :=
  [{ path := "b.ts", hash := "hb",
     symbols := [{ name := "bar", qualifiedName := none, kind := "function",
                   exported := false }],
     imports := [], calls := [] },
   { path := "a.ts", hash := "ha",
     symbols := [{ name := "foo", qualifiedName := none, kind := "function",
                   exported := true }],
     imports := [{ source := "./b", names := ["bar"] }], calls := [] }]

/-- Counterexample to C1 as stated: a full index emits a `references`
edge (2 to 1) whose target, symbol 1 (`bar` of `b.ts`), is NOT exported:
when the target file is re-parsed in the same run, its in-memory table
holds all of its symbols, not an exported-symbol table. -/
theorem crossFile_nonexported_target_counterexample :
    ({ fromId := 2, toId := 1, kind := "references" } : EdgeRow)
        ∈ (indexProjectDB c1Resolve c1Inputs emptyDB).edges
      ∧ (indexProjectDB c1Resolve c1Inputs emptyDB).symbols.map
          (fun s => (s.id, s.name, s.exported)) =
        [(1, "bar", false), (2, "foo", true)] := by
  constructor
  · decide
  · decide

/-- Witness for C1 (amended): the concrete two-file run, with every
hypothesis discharged by evaluation. -/
theorem indexProject_crossFile_references_witness :
    ({ fromId := 2, toId := 1, kind := "references" } : EdgeRow)
      ∈ (indexProjectDB c1Resolve c1Inputs emptyDB).edges :=
  indexProject_crossFile_references c1Resolve c1Inputs emptyDB
    "a.ts" "b.ts" "bar" "foo" [("b.ts", ["bar"])] ["bar"]
    [("foo", 2)] [("bar", 1)] 2 1
    (by decide) (by decide) (by decide) (by decide)
    (by decide) (by decide) (by decide) (by decide)

/-! ## C2: `reindexFile` runs outside any transaction -/

def c2Resolve : Resolver := fun _ _ => none

/-- A store holding one indexed file `a.ts` (digest `h1`) with one symbol
and its ranking row. -/
def c2DB : DB :=
  { files := [{ id := 1, path := "a.ts", hash := "h1" }],
    symbols := [{ id := 1, fileId := 1, name := "old", qualifiedName := none,
                  kind := "function", exported := true }],
    edges := [], fileDeps := [],
    rankings := [{ symbolId := 1, pagerank := 1, inDegree := 0, outDegree := 0 }],
    nextFileId := 2, nextSymbolId := 2 }

/-- The same file with changed content (digest `h2`) and one new symbol. -/
def c2Input : FileInput :=
  { path := "a.ts", hash := "h2",
    symbols := [{ name := "fresh", qualifiedName := none, kind := "function",
                  exported := true }],
    imports := [], calls := [] }

/-- C2 (code bug).  `reindexFile` issues its statements with no enclosing
transaction (contrast `indexProject`, whose mutations run inside
`db.transaction`), so each statement commits individually: if the run
fails after the fifth statement (the upsert plus the four DELETEs of
`clear_file_data`), the store is left in a state that is neither the
pre-call state nor the completed state — the old symbol and its ranking
are already gone and nothing has replaced them.  The final conjunct
checks that the full statement trace reproduces `reindexFile`'s effect at
this input. -/
theorem reindexFile_partial_state_observable :
    stateAfterPrefix c2Resolve c2DB c2Input 5 ≠ c2DB
      ∧ stateAfterPrefix c2Resolve c2DB c2Input 5
        ≠ (reindexFileTrace c2Resolve c2DB c2Input).foldl applyMutation c2DB
      ∧ (reindexFileTrace c2Resolve c2DB c2Input).foldl applyMutation c2DB
        = reindexFileExisting c2Resolve c2DB c2Input := by
  refine ⟨by decide, by decide, by decide⟩

/-! ## PageRank lemmas (C3, C4) -/

theorem idxOf_lt_length (ids : List Nat) (id i : Nat) (h : idxOf ids id = some i) :
    i < ids.length := by
  induction ids generalizing i with
  | nil => simp [idxOf] at h
  | cons x rest ih =>
      unfold idxOf at h
      by_cases hx : x == id
      · rw [if_pos hx] at h
        cases h
        simp
      · rw [if_neg hx] at h
        cases hrec : idxOf rest id with
        | none => rw [hrec] at h; simp at h
        | some j =>
            rw [hrec] at h
            simp only [Option.map] at h
            cases h
            have := ih j hrec
            simp only [List.length_cons]
            omega

theorem validEdgePairs_bound (ids : List Nat) (edges : List EdgeRow) :
    ∀ p ∈ validEdgePairs ids edges, p.1 < ids.length ∧ p.2 < ids.length := by
  intro p hp
  unfold validEdgePairs at hp
  rcases List.mem_filterMap.mp hp with ⟨e, _, he⟩
  cases h1 : idxOf ids e.fromId with
  | none => rw [h1] at he; simp at he
  | some f =>
      cases h2 : idxOf ids e.toId with
      | none => rw [h1, h2] at he; simp at he
      | some t =>
          rw [h1, h2] at he
          simp only [Option.some.injEq] at he
          cases he
          exact ⟨idxOf_lt_length ids e.fromId f h1, idxOf_lt_length ids e.toId t h2⟩

theorem outgoingLists_bound (ids : List Nat) (edges : List EdgeRow) (i : Nat) :
    ∀ j ∈ (outgoingLists ids edges).getD i [], j < ids.length := by
  intro j hj
  by_cases hi : i < ids.length
  · unfold outgoingLists at hj
    rw [List.getD_eq_getElem _ _ (by simpa using hi)] at hj
    rw [List.getElem_map] at hj
    rcases List.mem_map.mp hj with ⟨p, hpmem, hpj⟩
    subst hpj
    exact (validEdgePairs_bound ids edges p (List.mem_of_mem_filter hpmem)).2
  · unfold outgoingLists at hj
    rw [List.getD_eq_default] at hj
    · cases hj
    · simpa using hi

theorem addToCells_length (x : Rat) (js : List Nat) (acc : List Rat) :
    (addToCells x js acc).length = acc.length := by
  induction js generalizing acc with
  | nil => rfl
  | cons j rest ih =>
      unfold addToCells
      rw [List.foldl_cons]
      have := ih (acc.set j (acc.getD j 0 + x))
      unfold addToCells at this
      rw [this, List.length_set]

theorem sum_set_getD_add (acc : List Rat) (j : Nat) (x : Rat)
    (h : j < acc.length) :
    (acc.set j (acc.getD j 0 + x)).sum = acc.sum + x := by
  induction acc generalizing j with
  | nil => simp at h
  | cons a rest ih =>
      cases j with
      | zero =>
          simp only [List.set_cons_zero, List.getD_cons_zero, List.sum_cons]
          ring
      | succ k =>
          simp only [List.set, List.getD_cons_succ, List.sum_cons]
          rw [ih k (by simpa using h)]
          ring

theorem addToCells_sum (x : Rat) (js : List Nat) (acc : List Rat)
    (hb : ∀ j ∈ js, j < acc.length) :
    (addToCells x js acc).sum = acc.sum + (js.length : Rat) * x := by
  induction js generalizing acc with
  | nil => simp [addToCells]
  | cons j rest ih =>
      unfold addToCells
      rw [List.foldl_cons]
      have hj : j < acc.length := hb j (by simp)
      have hbrest : ∀ k ∈ rest, k < (acc.set j (acc.getD j 0 + x)).length := by
        intro k hk
        rw [List.length_set]
        exact hb k (by simp [hk])
      have := ih (acc.set j (acc.getD j 0 + x)) hbrest
      unfold addToCells at this
      rw [this, sum_set_getD_add acc j x hj]
      simp only [List.length_cons]
      push_cast
      ring

theorem addToCells_getD (x : Rat) (js : List Nat) (acc : List Rat) (j : Nat)
    (hb : ∀ k ∈ js, k < acc.length) (hj : j < acc.length) :
    (addToCells x js acc).getD j 0
      = acc.getD j 0 + ((js.filter (fun k => k == j)).length : Rat) * x := by
  induction js generalizing acc with
  | nil => simp [addToCells]
  | cons k rest ih =>
      unfold addToCells
      rw [List.foldl_cons]
      have hk : k < acc.length := hb k (by simp)
      have hlen : (acc.set k (acc.getD k 0 + x)).length = acc.length :=
        List.length_set acc k _
      have hbrest : ∀ m ∈ rest, m < (acc.set k (acc.getD k 0 + x)).length := by
        intro m hm
        rw [hlen]
        exact hb m (by simp [hm])
      have hrec := ih (acc.set k (acc.getD k 0 + x)) hbrest (hlen ▸ hj)
      unfold addToCells at hrec
      rw [hrec]
      by_cases hkj : k = j
      · subst hkj
        have hset : (acc.set k (acc.getD k 0 + x)).getD k 0 = acc.getD k 0 + x := by
          rw [List.getD_eq_getElem?_getD, List.getElem?_set_self hk]
          rfl
        rw [hset]
        simp only [List.filter_cons, beq_self_eq_true, if_true, List.length_cons]
        push_cast
        ring
      · have hset : (acc.set k (acc.getD k 0 + x)).getD j 0 = acc.getD j 0 := by
          rw [List.getD_eq_getElem?_getD, List.getElem?_set_ne hkj,
            ← List.getD_eq_getElem?_getD]
        rw [hset]
        have hfk : (k == j) = false := by simp [hkj]
        simp [List.filter_cons, hfk]

theorem prNodeStep_length (outgoing : List (List Nat)) (r : List Rat) (n : Nat)
    (acc : List Rat) (i : Nat) :
    (prNodeStep outgoing r n acc i).length = acc.length := by
  unfold prNodeStep
  split
  · exact addToCells_length _ _ _
  · exact addToCells_length _ _ _

theorem rat_len_cancel (L : Nat) (hL : L ≠ 0) (d x : Rat) :
    (L : Rat) * (d * (x / L)) = d * x := by
  have hq : (L : Rat) ≠ 0 := Nat.cast_ne_zero.mpr hL
  field_simp

theorem prNodeStep_sum (outgoing : List (List Nat)) (r : List Rat) (n : Nat)
    (acc : List Rat) (i : Nat)
    (hb : ∀ j ∈ outgoing.getD i [], j < n)
    (hacc : acc.length = n) (hn : n ≠ 0) :
    (prNodeStep outgoing r n acc i).sum = acc.sum + damping * r.getD i 0 := by
  unfold prNodeStep
  split
  · rename_i hout
    rw [addToCells_sum _ _ _ (fun j hj => hacc ▸ hb j hj)]
    rw [rat_len_cancel (outgoing.getD i []).length (Nat.pos_iff_ne_zero.mp hout)
      damping (r.getD i 0)]
  · rw [addToCells_sum _ _ _ (fun j hj => by
      rw [hacc]; exact List.mem_range.mp hj)]
    rw [List.length_range]
    rw [rat_len_cancel n hn damping (r.getD i 0)]

theorem count_range_eq_one (n j : Nat) (hj : j < n) :
    (((List.range n).filter (fun k => k == j)).length : Nat) = 1 := by
  rw [← List.countP_eq_length_filter]
  have : List.countP (fun k => k == j) (List.range n) = List.count j (List.range n) := rfl
  rw [this]
  exact List.count_eq_one_of_mem (List.nodup_range n) (List.mem_range.mpr hj)

theorem prNodeStep_getD (outgoing : List (List Nat)) (r : List Rat) (n : Nat)
    (acc : List Rat) (i j : Nat)
    (hb : ∀ k ∈ outgoing.getD i [], k < n)
    (hacc : acc.length = n) (hj : j < n) :
    (prNodeStep outgoing r n acc i).getD j 0
      = acc.getD j 0 + prContribution r outgoing n i j := by
  unfold prNodeStep prContribution
  split
  · rw [addToCells_getD _ _ _ _ (fun k hk => hacc ▸ hb k hk) (hacc ▸ hj)]
    ring
  · rw [addToCells_getD _ _ _ _ (fun k hk => by
      rw [hacc]; exact List.mem_range.mp hk) (hacc ▸ hj)]
    rw [count_range_eq_one n j hj]
    push_cast
    ring

theorem prFold_length (outgoing : List (List Nat)) (r : List Rat) (n : Nat) :
    ∀ (is : List Nat) (acc : List Rat),
      (is.foldl (prNodeStep outgoing r n) acc).length = acc.length := by
  intro is
  induction is with
  | nil => intro acc; rfl
  | cons i rest ih =>
      intro acc
      rw [List.foldl_cons, ih, prNodeStep_length]

theorem prFold_sum (outgoing : List (List Nat)) (r : List Rat) (n : Nat)
    (hb : ∀ i, ∀ j ∈ outgoing.getD i [], j < n) (hn : n ≠ 0) :
    ∀ (is : List Nat) (acc : List Rat), acc.length = n →
      (is.foldl (prNodeStep outgoing r n) acc).sum
        = acc.sum + damping * ((is.map (fun i => r.getD i 0)).sum) := by
  intro is
  induction is with
  | nil => intro acc _; simp
  | cons i rest ih =>
      intro acc hacc
      rw [List.foldl_cons]
      have h1 : (prNodeStep outgoing r n acc i).length = n := by
        rw [prNodeStep_length]; exact hacc
      rw [ih _ h1, prNodeStep_sum outgoing r n acc i (hb i) hacc hn]
      simp only [List.map_cons, List.sum_cons]
      ring

theorem prFold_getD (outgoing : List (List Nat)) (r : List Rat) (n : Nat)
    (j : Nat) (hb : ∀ i, ∀ k ∈ outgoing.getD i [], k < n) (hj : j < n) :
    ∀ (is : List Nat) (acc : List Rat), acc.length = n →
      (is.foldl (prNodeStep outgoing r n) acc).getD j 0
        = acc.getD j 0 + ((is.map (fun i => prContribution r outgoing n i j)).sum) := by
  intro is
  induction is with
  | nil => intro acc _; simp
  | cons i rest ih =>
      intro acc hacc
      rw [List.foldl_cons]
      have h1 : (prNodeStep outgoing r n acc i).length = n := by
        rw [prNodeStep_length]; exact hacc
      rw [ih _ h1, prNodeStep_getD outgoing r n acc i j (hb i) hacc hj]
      simp only [List.map_cons, List.sum_cons]
      ring

theorem prStep_length (n : Nat) (outgoing : List (List Nat)) (r : List Rat) :
    (prStep n outgoing r).length = n := by
  unfold prStep
  rw [prFold_length, List.length_replicate]

theorem sum_getD_range (r : List Rat) :
    ((List.range r.length).map (fun i => r.getD i 0)).sum = r.sum := by
  induction r with
  | nil => simp
  | cons a rest ih =>
      rw [List.length_cons, List.range_succ_eq_map]
      simp only [List.map_cons, List.map_map, List.sum_cons, Function.comp_def,
        List.getD_cons_zero, List.getD_cons_succ]
      rw [ih]

theorem prStep_sum (n : Nat) (outgoing : List (List Nat)) (r : List Rat)
    (hb : ∀ i, ∀ j ∈ outgoing.getD i [], j < n) (hn : n ≠ 0)
    (hr : r.length = n) :
    (prStep n outgoing r).sum = (1 - damping) + damping * r.sum := by
  unfold prStep
  rw [prFold_sum outgoing r n hb hn _ _ (List.length_replicate n _)]
  rw [List.sum_replicate, nsmul_eq_mul]
  have hnq : (n : Rat) ≠ 0 := by exact_mod_cast hn
  rw [← hr] at *
  rw [sum_getD_range]
  field_simp

theorem prStep_getD_eq (n : Nat) (outgoing : List (List Nat)) (r : List Rat)
    (j : Nat) (hb : ∀ i, ∀ k ∈ outgoing.getD i [], k < n) (hj : j < n) :
    (prStep n outgoing r).getD j 0
      = (1 - damping) / n
        + ((List.range n).map (fun i => prContribution r outgoing n i j)).sum := by
  unfold prStep
  rw [prFold_getD outgoing r n j hb hj _ _ (List.length_replicate n _)]
  congr 1
  rw [List.getD_eq_getElem _ _ (by simpa using hj), List.getElem_replicate]

theorem prStepSpec_length (n : Nat) (outgoing : List (List Nat)) (r : List Rat) :
    (prStepSpec n outgoing r).length = n := by
  unfold prStepSpec
  rw [List.length_map, List.length_range]

theorem prStep_eq_spec (n : Nat) (outgoing : List (List Nat)) (r : List Rat)
    (hb : ∀ i, ∀ k ∈ outgoing.getD i [], k < n) :
    prStep n outgoing r = prStepSpec n outgoing r := by
  apply List.ext_getElem
  · rw [prStep_length, prStepSpec_length]
  · intro j h1 h2
    have hj : j < n := by rw [prStep_length] at h1; exact h1
    rw [← List.getD_eq_getElem _ 0 h1, ← List.getD_eq_getElem _ 0 h2]
    rw [prStep_getD_eq n outgoing r j hb hj]
    unfold prStepSpec
    rw [List.getD_eq_getElem _ 0 (by rw [List.length_map, List.length_range]; exact hj)]
    rw [List.getElem_map, List.getElem_range]
    have hd : (1 - damping) / (n : Rat) = (15 / 100 : Rat) / n := by
      norm_num [damping]
    rw [hd]

theorem prRankVector_eq_spec (n : Nat) (outgoing : List (List Nat))
    (hb : ∀ i, ∀ k ∈ outgoing.getD i [], k < n) :
    prRankVector n outgoing = prRankVectorSpec n outgoing := by
  unfold prRankVector prRankVectorSpec
  have key : ∀ (k : Nat) (r : List Rat),
      Nat.iterate (prStep n outgoing) k r = Nat.iterate (prStepSpec n outgoing) k r := by
    intro k
    induction k with
    | zero => intro r; rfl
    | succ m ih =>
        intro r
        rw [Function.iterate_succ_apply, Function.iterate_succ_apply]
        rw [ih (prStep n outgoing r)]
        rw [prStep_eq_spec n outgoing r hb]
  exact key 20 _

theorem prRankVector_sum_one (n : Nat) (outgoing : List (List Nat))
    (hb : ∀ i, ∀ k ∈ outgoing.getD i [], k < n) (hn : n ≠ 0) :
    (prRankVector n outgoing).sum = 1 ∧ (prRankVector n outgoing).length = n := by
  unfold prRankVector
  have key : ∀ (k : Nat) (r : List Rat), r.length = n → r.sum = 1 →
      (Nat.iterate (prStep n outgoing) k r).sum = 1
        ∧ (Nat.iterate (prStep n outgoing) k r).length = n := by
    intro k
    induction k with
    | zero => intro r hr hs; exact ⟨hs, hr⟩
    | succ m ih =>
        intro r hr hs
        rw [Function.iterate_succ_apply]
        refine ih (prStep n outgoing r) (prStep_length n outgoing r) ?_
        rw [prStep_sum n outgoing r hb hn hr, hs]
        norm_num [damping]
  refine key 20 _ (List.length_replicate n _) ?_
  rw [List.sum_replicate, nsmul_eq_mul]
  have hnq : (n : Rat) ≠ 0 := by exact_mod_cast hn
  field_simp

theorem computePageRank_symbols (db : DB) :
    (computePageRank db).symbols = db.symbols := by
  by_cases h : (db.symbols.map (fun s => s.id)).isEmpty
  · simp [computePageRank, h]
  · simp [computePageRank, h]

theorem symbols_map_isEmpty_false (db : DB) (h : db.symbols ≠ []) :
    (db.symbols.map (fun s => s.id)).isEmpty = false := by
  cases hs : db.symbols with
  | nil => exact absurd hs h
  | cons a l => rfl

/-- C3.  The PageRank computation over `n >= 1` symbols initialises every
rank to `1/n` and runs exactly 20 iterations with damping `0.85 = 85/100`;
each iteration starts every new rank at `0.15/n` and adds, for every node
`i` with positive out-degree, `0.85 * r_i / outdeg(i)` per occurrence of
the successor, and for every dangling node `0.85 * r_i / n` to every node
(`prStepSpec`/`prContribution`/`prRankVectorSpec` are written from the
claim's wording; the stored rows carry exactly these values plus the in-
and out-degrees). -/
theorem computePageRank_follows_claim (db : DB) (h : db.symbols ≠ []) :
    (computePageRank db).rankings
      = (List.range ((db.symbols.map (fun s => s.id)).length)).map (fun i =>
          { symbolId := (db.symbols.map (fun s => s.id)).getD i 0,
            pagerank := (prRankVectorSpec ((db.symbols.map (fun s => s.id)).length)
              (outgoingLists (db.symbols.map (fun s => s.id)) db.edges)).getD i 0,
            inDegree :=
              ((incomingLists (db.symbols.map (fun s => s.id)) db.edges).getD i []).length,
            outDegree :=
              ((outgoingLists (db.symbols.map (fun s => s.id)) db.edges).getD i []).length }) := by
  have hne := symbols_map_isEmpty_false db h
  have hbound : ∀ i, ∀ k ∈
      (outgoingLists (db.symbols.map (fun s => s.id)) db.edges).getD i [],
      k < (db.symbols.map (fun s => s.id)).length := fun i =>
    outgoingLists_bound (db.symbols.map (fun s => s.id)) db.edges i
  simp only [computePageRank, hne, Bool.false_eq_true, if_false]
  rw [prRankVector_eq_spec ((db.symbols.map (fun s => s.id)).length)
    (outgoingLists (db.symbols.map (fun s => s.id)) db.edges) hbound]

/-- A one-symbol store for evaluating the PageRank theorems. -/
def prWitnessDB : DB :=
  { files := [{ id := 1, path := "a.ts", hash := "h" }],
    symbols := [{ id := 1, fileId := 1, name := "foo", qualifiedName := none,
                  kind := "function", exported := true }],
    edges := [], fileDeps := [], rankings := [],
    nextFileId := 2, nextSymbolId := 2 }

/-- Witness for C3: the one-symbol store, with the hypothesis discharged
by evaluation. -/
theorem computePageRank_follows_claim_witness :
    prWitnessDB.symbols ≠ []
      ∧ (computePageRank prWitnessDB).rankings
        = (List.range ((prWitnessDB.symbols.map (fun s => s.id)).length)).map (fun i =>
            { symbolId := (prWitnessDB.symbols.map (fun s => s.id)).getD i 0,
              pagerank := (prRankVectorSpec
                ((prWitnessDB.symbols.map (fun s => s.id)).length)
                (outgoingLists (prWitnessDB.symbols.map (fun s => s.id))
                  prWitnessDB.edges)).getD i 0,
              inDegree := ((incomingLists (prWitnessDB.symbols.map (fun s => s.id))
                prWitnessDB.edges).getD i []).length,
              outDegree := ((outgoingLists (prWitnessDB.symbols.map (fun s => s.id))
                prWitnessDB.edges).getD i []).length }) :=
  ⟨by decide, computePageRank_follows_claim prWitnessDB (by decide)⟩

theorem computePageRank_ranking_count_sum (db : DB) (h : db.symbols ≠ []) :
    (computePageRank db).rankings.length = (computePageRank db).symbols.length
      ∧ |(((computePageRank db).rankings.map (fun row => row.pagerank)).sum - 1)|
        ≤ 1 / 1000000 := by
  have hne := symbols_map_isEmpty_false db h
  have hbound : ∀ i, ∀ k ∈
      (outgoingLists (db.symbols.map (fun s => s.id)) db.edges).getD i [],
      k < (db.symbols.map (fun s => s.id)).length := fun i =>
    outgoingLists_bound (db.symbols.map (fun s => s.id)) db.edges i
  have hn : (db.symbols.map (fun s => s.id)).length ≠ 0 := by
    cases hs : db.symbols with
    | nil => exact absurd hs h
    | cons a l => simp
  have hsum := prRankVector_sum_one ((db.symbols.map (fun s => s.id)).length)
    (outgoingLists (db.symbols.map (fun s => s.id)) db.edges) hbound hn
  constructor
  · simp only [computePageRank, hne, Bool.false_eq_true, if_false]
    simp [List.length_map, List.length_range]
  · simp only [computePageRank, hne, Bool.false_eq_true, if_false]
    have hmap : (((List.range ((db.symbols.map (fun s => s.id)).length)).map (fun i =>
        ({ symbolId := (db.symbols.map (fun s => s.id)).getD i 0,
           pagerank := (prRankVector ((db.symbols.map (fun s => s.id)).length)
             (outgoingLists (db.symbols.map (fun s => s.id)) db.edges)).getD i 0,
           inDegree :=
             ((incomingLists (db.symbols.map (fun s => s.id)) db.edges).getD i []).length,
           outDegree :=
             ((outgoingLists (db.symbols.map (fun s => s.id)) db.edges).getD i []).length }
          : RankingRow))).map (fun row => row.pagerank)).sum
        = ((List.range ((db.symbols.map (fun s => s.id)).length)).map (fun i =>
            (prRankVector ((db.symbols.map (fun s => s.id)).length)
              (outgoingLists (db.symbols.map (fun s => s.id)) db.edges)).getD i 0)).sum := by
      rw [List.map_map]
      rfl
    rw [hmap]
    set v := prRankVector ((db.symbols.map (fun s => s.id)).length)
      (outgoingLists (db.symbols.map (fun s => s.id)) db.edges) with hv
    rw [← hsum.2, sum_getD_range, hsum.1]
    norm_num

/-- C4.  After any full index run with at least one symbol, the rankings
table holds exactly one row per symbol, and the stored PageRank values
sum to 1 within `10^-6` (exactly 1 in the rational model). -/
theorem indexProject_ranking_count_sum (resolve : Resolver)
    (inputs : List FileInput) (db0 : DB)
    (h : (indexProjectDB resolve inputs db0).symbols ≠ []) :
    (indexProjectDB resolve inputs db0).rankings.length
        = (indexProjectDB resolve inputs db0).symbols.length
      ∧ |(((indexProjectDB resolve inputs db0).rankings.map
            (fun row => row.pagerank)).sum - 1)| ≤ 1 / 1000000 := by
  rw [indexProjectDB_eq_phases] at h ⊢
  rw [computePageRank_symbols] at h
  exact computePageRank_ranking_count_sum _ h

/-- Witness for C4: the concrete two-file run. -/
theorem indexProject_ranking_count_sum_witness :
    (indexProjectDB c1Resolve c1Inputs emptyDB).symbols ≠ []
      ∧ ((indexProjectDB c1Resolve c1Inputs emptyDB).rankings.length
          = (indexProjectDB c1Resolve c1Inputs emptyDB).symbols.length
        ∧ |(((indexProjectDB c1Resolve c1Inputs emptyDB).rankings.map
              (fun row => row.pagerank)).sum - 1)| ≤ 1 / 1000000) :=
  ⟨by decide, indexProject_ranking_count_sum c1Resolve c1Inputs emptyDB (by decide)⟩

/-! ## Frame lemmas for the indexer pipeline (C6, C10) -/

theorem insertEdge_frame (db : DB) (a b : Nat) (k : String) :
    (insertEdge db a b k).files = db.files
      ∧ (insertEdge db a b k).symbols = db.symbols
      ∧ (insertEdge db a b k).fileDeps = db.fileDeps
      ∧ (insertEdge db a b k).rankings = db.rankings
      ∧ (insertEdge db a b k).nextFileId = db.nextFileId
      ∧ (insertEdge db a b k).nextSymbolId = db.nextSymbolId := by
  unfold insertEdge
  split
  · exact ⟨rfl, rfl, rfl, rfl, rfl, rfl⟩
  · exact ⟨rfl, rfl, rfl, rfl, rfl, rfl⟩

theorem insertFileDep_frame (db : DB) (a b : Nat) (k nm : String) :
    (insertFileDep db a b k nm).files = db.files
      ∧ (insertFileDep db a b k nm).symbols = db.symbols
      ∧ (insertFileDep db a b k nm).edges = db.edges
      ∧ (insertFileDep db a b k nm).rankings = db.rankings
      ∧ (insertFileDep db a b k nm).nextFileId = db.nextFileId
      ∧ (insertFileDep db a b k nm).nextSymbolId = db.nextSymbolId := by
  unfold insertFileDep
  split
  · exact ⟨rfl, rfl, rfl, rfl, rfl, rfl⟩
  · exact ⟨rfl, rfl, rfl, rfl, rfl, rfl⟩

theorem insertParsedSymbols_frame (fileId : Nat) :
    ∀ (syms : List ParsedSymbol) (p : DB × SymTable),
      (syms.foldl (insertSymbolsStep fileId) p).1.files = p.1.files
        ∧ (syms.foldl (insertSymbolsStep fileId) p).1.edges = p.1.edges
        ∧ (syms.foldl (insertSymbolsStep fileId) p).1.fileDeps = p.1.fileDeps
        ∧ (syms.foldl (insertSymbolsStep fileId) p).1.rankings = p.1.rankings
        ∧ (syms.foldl (insertSymbolsStep fileId) p).1.nextFileId = p.1.nextFileId := by
  intro syms
  induction syms with
  | nil => intro p; exact ⟨rfl, rfl, rfl, rfl, rfl⟩
  | cons s rest ih =>
      intro p
      rw [List.foldl_cons]
      have h := ih (insertSymbolsStep fileId p s)
      exact ⟨h.1, h.2.1, h.2.2.1, h.2.2.2.1, h.2.2.2.2⟩

theorem importStep_frame (resolve : Resolver) (fileId : Nat) (relPath : String)
    (p : DB × List (String × List String)) (imp : ParsedImport) :
    (importStep resolve fileId relPath p imp).1.files = p.1.files
      ∧ (importStep resolve fileId relPath p imp).1.symbols = p.1.symbols
      ∧ (importStep resolve fileId relPath p imp).1.edges = p.1.edges
      ∧ (importStep resolve fileId relPath p imp).1.rankings = p.1.rankings
      ∧ (importStep resolve fileId relPath p imp).1.nextFileId = p.1.nextFileId
      ∧ (importStep resolve fileId relPath p imp).1.nextSymbolId = p.1.nextSymbolId := by
  unfold importStep
  cases resolve relPath imp.source with
  | none => exact ⟨rfl, rfl, rfl, rfl, rfl, rfl⟩
  | some resolved =>
      dsimp only
      cases p.1.files.find? (fun f => f.path == resolved) with
      | none => exact ⟨rfl, rfl, rfl, rfl, rfl, rfl⟩
      | some toFile => exact insertFileDep_frame p.1 fileId toFile.id "import" _

theorem processImports_frame (resolve : Resolver) (fileId : Nat) (relPath : String) :
    ∀ (imps : List ParsedImport) (p : DB × List (String × List String)),
      (imps.foldl (importStep resolve fileId relPath) p).1.files = p.1.files
        ∧ (imps.foldl (importStep resolve fileId relPath) p).1.symbols = p.1.symbols
        ∧ (imps.foldl (importStep resolve fileId relPath) p).1.edges = p.1.edges
        ∧ (imps.foldl (importStep resolve fileId relPath) p).1.rankings = p.1.rankings
        ∧ (imps.foldl (importStep resolve fileId relPath) p).1.nextFileId = p.1.nextFileId
        ∧ (imps.foldl (importStep resolve fileId relPath) p).1.nextSymbolId = p.1.nextSymbolId := by
  intro imps
  induction imps with
  | nil => intro p; exact ⟨rfl, rfl, rfl, rfl, rfl, rfl⟩
  | cons imp rest ih =>
      intro p
      rw [List.foldl_cons]
      have h := ih (importStep resolve fileId relPath p imp)
      have hs := importStep_frame resolve fileId relPath p imp
      exact ⟨h.1.trans hs.1, h.2.1.trans hs.2.1, h.2.2.1.trans hs.2.2.1,
        h.2.2.2.1.trans hs.2.2.2.1, h.2.2.2.2.1.trans hs.2.2.2.2.1,
        h.2.2.2.2.2.trans hs.2.2.2.2.2⟩

theorem callStep_frame (table : SymTable) (db : DB) (call : ParsedCall) :
    (callStep table db call).files = db.files
      ∧ (callStep table db call).symbols = db.symbols
      ∧ (callStep table db call).fileDeps = db.fileDeps
      ∧ (callStep table db call).rankings = db.rankings
      ∧ (callStep table db call).nextFileId = db.nextFileId
      ∧ (callStep table db call).nextSymbolId = db.nextSymbolId := by
  unfold callStep
  cases mapGet table call.callerSymbol with
  | none => exact ⟨rfl, rfl, rfl, rfl, rfl, rfl⟩
  | some callerId =>
      cases mapGet table call.calledName with
      | none => exact ⟨rfl, rfl, rfl, rfl, rfl, rfl⟩
      | some calledId =>
          dsimp only
          by_cases h : callerId ≠ calledId
          · rw [if_pos h]
            exact insertEdge_frame db callerId calledId "calls"
          · rw [if_neg h]
            exact ⟨rfl, rfl, rfl, rfl, rfl, rfl⟩

theorem processCalls_frame (table : SymTable) :
    ∀ (calls : List ParsedCall) (db : DB),
      (calls.foldl (callStep table) db).files = db.files
        ∧ (calls.foldl (callStep table) db).symbols = db.symbols
        ∧ (calls.foldl (callStep table) db).fileDeps = db.fileDeps
        ∧ (calls.foldl (callStep table) db).rankings = db.rankings
        ∧ (calls.foldl (callStep table) db).nextFileId = db.nextFileId
        ∧ (calls.foldl (callStep table) db).nextSymbolId = db.nextSymbolId := by
  intro calls
  induction calls with
  | nil => intro db; exact ⟨rfl, rfl, rfl, rfl, rfl, rfl⟩
  | cons c rest ih =>
      intro db
      rw [List.foldl_cons]
      have h := ih (callStep table db c)
      have hs := callStep_frame table db c
      exact ⟨h.1.trans hs.1, h.2.1.trans hs.2.1, h.2.2.1.trans hs.2.2.1,
        h.2.2.2.1.trans hs.2.2.2.1, h.2.2.2.2.1.trans hs.2.2.2.2.1,
        h.2.2.2.2.2.trans hs.2.2.2.2.2⟩

theorem insertParsedSymbols_frame2 (db : DB) (fileId : Nat)
    (syms : List ParsedSymbol) :
    (insertParsedSymbols db fileId syms).1.files = db.files
      ∧ (insertParsedSymbols db fileId syms).1.edges = db.edges
      ∧ (insertParsedSymbols db fileId syms).1.fileDeps = db.fileDeps
      ∧ (insertParsedSymbols db fileId syms).1.rankings = db.rankings
      ∧ (insertParsedSymbols db fileId syms).1.nextFileId = db.nextFileId := by
  unfold insertParsedSymbols
  exact insertParsedSymbols_frame fileId syms (db, [])

theorem processImports_frame2 (resolve : Resolver) (db : DB) (fileId : Nat)
    (relPath : String) (imps : List ParsedImport) :
    (processImports resolve db fileId relPath imps).1.files = db.files
      ∧ (processImports resolve db fileId relPath imps).1.symbols = db.symbols
      ∧ (processImports resolve db fileId relPath imps).1.edges = db.edges
      ∧ (processImports resolve db fileId relPath imps).1.rankings = db.rankings
      ∧ (processImports resolve db fileId relPath imps).1.nextFileId = db.nextFileId
      ∧ (processImports resolve db fileId relPath imps).1.nextSymbolId = db.nextSymbolId := by
  unfold processImports
  exact processImports_frame resolve fileId relPath imps (db, [])

theorem processCalls_frame2 (db : DB) (table : SymTable) (calls : List ParsedCall) :
    (processCalls db table calls).files = db.files
      ∧ (processCalls db table calls).symbols = db.symbols
      ∧ (processCalls db table calls).fileDeps = db.fileDeps
      ∧ (processCalls db table calls).rankings = db.rankings
      ∧ (processCalls db table calls).nextFileId = db.nextFileId
      ∧ (processCalls db table calls).nextSymbolId = db.nextSymbolId := by
  unfold processCalls
  exact processCalls_frame table calls db

/-- The cross-file pass never touches anything but the edges table. -/
theorem emitRefStep_frame (tgt : Nat) (db : DB) (x : String × Nat) :
    (emitRefStep tgt db x).files = db.files
      ∧ (emitRefStep tgt db x).symbols = db.symbols
      ∧ (emitRefStep tgt db x).fileDeps = db.fileDeps
      ∧ (emitRefStep tgt db x).rankings = db.rankings
      ∧ (emitRefStep tgt db x).nextFileId = db.nextFileId
      ∧ (emitRefStep tgt db x).nextSymbolId = db.nextSymbolId := by
  unfold emitRefStep
  split
  · exact insertEdge_frame db x.2 tgt "references"
  · exact ⟨rfl, rfl, rfl, rfl, rfl, rfl⟩

/-- Every field except `edges` is invariant under the cross-file pass.
The predicate is stated against a fixed reference store `b`. -/
def eqExceptEdges (a b : DB) : Prop :=
  a.files = b.files ∧ a.symbols = b.symbols ∧ a.fileDeps = b.fileDeps
    ∧ a.rankings = b.rankings ∧ a.nextFileId = b.nextFileId
    ∧ a.nextSymbolId = b.nextSymbolId

theorem crossEmitForFile_eqExceptEdges (fsm : List (String × SymTable)) (b : DB)
    (db : DB) (entry : String × List (String × List String))
    (h : eqExceptEdges db b) : eqExceptEdges (crossEmitForFile fsm db entry) b := by
  unfold crossEmitForFile
  cases mapGet fsm entry.1 with
  | none => exact h
  | some it =>
      refine foldl_preserve (fun db => eqExceptEdges db b)
        (crossEmitForImport fsm it) (fun db imp hdb => ?_) entry.2 db h
      unfold crossEmitForImport
      cases mapGet fsm imp.1 with
      | none => exact hdb
      | some et =>
          refine foldl_preserve (fun db => eqExceptEdges db b)
            (crossEmitForName it et) (fun db nm hdb => ?_) imp.2 db hdb
          unfold crossEmitForName
          cases mapGet et nm with
          | none => exact hdb
          | some tgt =>
              refine foldl_preserve (fun db => eqExceptEdges db b)
                (emitRefStep tgt) (fun db x hdb => ?_) it db hdb
              have hs := emitRefStep_frame tgt db x
              exact ⟨hs.1.trans hdb.1, hs.2.1.trans hdb.2.1,
                hs.2.2.1.trans hdb.2.2.1, hs.2.2.2.1.trans hdb.2.2.2.1,
                hs.2.2.2.2.1.trans hdb.2.2.2.2.1, hs.2.2.2.2.2.trans hdb.2.2.2.2.2⟩

theorem crossFilePass_eqExceptEdges (st : IndexState) :
    eqExceptEdges (crossFilePass st) st.db := by
  unfold crossFilePass
  exact foldl_preserve (fun db => eqExceptEdges db st.db)
    (crossEmitForFile st.fileSymbolMap)
    (fun db entry hdb => crossEmitForFile_eqExceptEdges st.fileSymbolMap st.db db entry hdb)
    st.fileImportMap st.db ⟨rfl, rfl, rfl, rfl, rfl, rfl⟩

theorem computePageRank_frame (db : DB) :
    (computePageRank db).files = db.files
      ∧ (computePageRank db).fileDeps = db.fileDeps
      ∧ (computePageRank db).nextFileId = db.nextFileId
      ∧ (computePageRank db).nextSymbolId = db.nextSymbolId := by
  by_cases h : (db.symbols.map (fun s => s.id)).isEmpty
  · simp [computePageRank, h]
  · simp [computePageRank, h]

/-! ## Digest idempotence of the full index (C6) -/

/-- The file rows a from-scratch index over `inputs` creates, with the
AUTOINCREMENT ids they receive. -/
def enumFiles (k : Nat) : List FileInput → List FileRow
  | [] => []
  | inp :: rest =>
      { id := k, path := inp.path, hash := inp.hash } :: enumFiles (k + 1) rest

theorem enumFiles_map_path (inputs : List FileInput) :
    ∀ k, (enumFiles k inputs).map (fun f => f.path) = inputs.map (fun i => i.path) := by
  induction inputs with
  | nil => intro k; rfl
  | cons inp rest ih =>
      intro k
      simp [enumFiles, ih (k + 1)]

theorem enumFiles_find (inputs : List FileInput) :
    ∀ (k : Nat) (inp : FileInput), inp ∈ inputs →
      (inputs.map (fun i => i.path)).Nodup →
      ∃ row : FileRow,
        (enumFiles k inputs).find? (fun f => f.path == inp.path) = some row
          ∧ row.hash = inp.hash := by
  induction inputs with
  | nil => intro k inp h; cases h
  | cons a rest ih =>
      intro k inp hmem hnd
      rcases List.mem_cons.mp hmem with heq | hmem2
      · subst heq
        refine ⟨{ id := k, path := inp.path, hash := inp.hash }, ?_, rfl⟩
        simp [enumFiles, List.find?]
      · have hnd' : (a.path :: rest.map (fun i => i.path)).Nodup := by
          simpa using hnd
        have hne : (a.path == inp.path) = false := by
          have hni : a.path ∉ rest.map (fun i => i.path) := (List.nodup_cons.mp hnd').1
          have : a.path ≠ inp.path := by
            intro hc
            exact hni (hc ▸ List.mem_map_of_mem _ hmem2)
          simp [this]
        rcases ih (k + 1) inp hmem2 (List.nodup_cons.mp hnd').2 with ⟨row, hfind, hhash⟩
        refine ⟨row, ?_, hhash⟩
        simp [enumFiles, List.find?, hne, hfind]

/-- A new file (no row with its path): the per-file step appends exactly
one file row under the next id. -/
theorem processFile_files_new (resolve : Resolver) (st : IndexState)
    (input : FileInput)
    (hfind : st.db.files.find? (fun f => f.path == input.path) = none) :
    (processFile resolve st input).db.files
        = st.db.files ++ [{ id := st.db.nextFileId, path := input.path, hash := input.hash }]
      ∧ (processFile resolve st input).db.nextFileId = st.db.nextFileId + 1 := by
  simp only [processFile, getOrCreateFile, hfind, not_true, if_false]
  constructor
  · rw [(processCalls_frame2 _ _ _).1, (processImports_frame2 resolve _ _ _ _).1,
      (insertParsedSymbols_frame2 _ _ _).1]
    rfl
  · rw [(processCalls_frame2 _ _ _).2.2.2.2.1,
      (processImports_frame2 resolve _ _ _ _).2.2.2.2.1,
      (insertParsedSymbols_frame2 _ _ _).2.2.2.2]
    rfl

/-- From-scratch builds over distinct new paths create exactly the
enumerated file rows. -/
theorem buildPhase_files (resolve : Resolver) :
    ∀ (inputs : List FileInput) (st : IndexState),
      (inputs.map (fun i => i.path)).Nodup →
      (∀ inp ∈ inputs, ∀ f ∈ st.db.files, f.path ≠ inp.path) →
      (inputs.foldl (processFile resolve) st).db.files
          = st.db.files ++ enumFiles st.db.nextFileId inputs
        ∧ (inputs.foldl (processFile resolve) st).db.nextFileId
          = st.db.nextFileId + inputs.length := by
  intro inputs
  induction inputs with
  | nil => intro st _ _; simp [enumFiles]
  | cons inp rest ih =>
      intro st hnd hdis
      rw [List.foldl_cons]
      have hfind : st.db.files.find? (fun f => f.path == inp.path) = none := by
        rw [List.find?_eq_none]
        intro f hf
        simp [hdis inp (by simp) f hf]
      have hstep := processFile_files_new resolve st inp hfind
      have hndc : (inp.path :: rest.map (fun i => i.path)).Nodup := by simpa using hnd
      have hnd2 : (rest.map (fun i => i.path)).Nodup := (List.nodup_cons.mp hndc).2
      have hdis2 : ∀ i ∈ rest, ∀ f ∈ (processFile resolve st inp).db.files,
          f.path ≠ i.path := by
        intro i hi f hf
        rw [hstep.1] at hf
        rcases List.mem_append.mp hf with hold | hnew
        · exact hdis i (by simp [hi]) f hold
        · have hfeq : f = { id := st.db.nextFileId, path := inp.path, hash := inp.hash } := by
            simpa using hnew
          subst hfeq
          have hni : inp.path ∉ rest.map (fun i => i.path) := (List.nodup_cons.mp hndc).1
          show inp.path ≠ i.path
          intro hc
          exact hni (hc ▸ List.mem_map_of_mem _ hi)
      have hrec := ih (processFile resolve st inp) hnd2 hdis2
      constructor
      · rw [hrec.1, hstep.1, hstep.2]
        simp [enumFiles]
      · rw [hrec.2, hstep.2]
        simp [List.length_cons]
        omega

/-- The stale sweep is the identity when every stored path is valid. -/
theorem removeStaleFiles_id (db : DB) (valid : List String)
    (h : ∀ f ∈ db.files, f.path ∈ valid) : removeStaleFiles db valid = db := by
  unfold removeStaleFiles
  have key : ∀ (l : List FileRow) (acc : DB), (∀ f ∈ l, f.path ∈ valid) →
      l.foldl (removeStaleStep valid) acc = acc := by
    intro l
    induction l with
    | nil => intro acc _; rfl
    | cons f rest ih =>
        intro acc hl
        rw [List.foldl_cons]
        have hc : valid.contains f.path = true := by
          have := hl f (by simp)
          simpa using this
        unfold removeStaleStep
        rw [if_pos hc]
        exact ih acc (fun g hg => hl g (by simp [hg]))
  exact key db.files db h

/-- With an empty import map the cross-file pass is the identity. -/
theorem crossFilePass_empty (st : IndexState) (h : st.fileImportMap = []) :
    crossFilePass st = st.db := by
  unfold crossFilePass
  rw [h]
  rfl

/-- Re-running PageRank changes nothing: it reads only symbols and edges,
which it does not modify. -/
theorem computePageRank_idem (db : DB) :
    computePageRank (computePageRank db) = computePageRank db := by
  by_cases h : (db.symbols.map (fun s => s.id)).isEmpty
  · have h1 : computePageRank db = db := by simp [computePageRank, h]
    rw [h1, h1]
  · have h1 : computePageRank db
        = { db with rankings := (List.range ((db.symbols.map (fun s => s.id)).length)).map (fun i =>
            { symbolId := (db.symbols.map (fun s => s.id)).getD i 0,
              pagerank := (prRankVector ((db.symbols.map (fun s => s.id)).length)
                (outgoingLists (db.symbols.map (fun s => s.id)) db.edges)).getD i 0,
              inDegree :=
                ((incomingLists (db.symbols.map (fun s => s.id)) db.edges).getD i []).length,
              outDegree :=
                ((outgoingLists (db.symbols.map (fun s => s.id)) db.edges).getD i []).length }) } := by
      simp [computePageRank, h]
    rw [h1]
    simp [computePageRank, h]

/-- A file whose stored digest equals the input digest: the per-file step
leaves the store, the import map and the indexed counter untouched and
counts the file as skipped. -/
theorem processFile_unchanged (resolve : Resolver) (st : IndexState)
    (input : FileInput) (row : FileRow)
    (hfind : st.db.files.find? (fun f => f.path == input.path) = some row)
    (hhash : row.hash = input.hash) :
    (processFile resolve st input).db = st.db
      ∧ (processFile resolve st input).fileImportMap = st.fileImportMap
      ∧ (processFile resolve st input).indexedFiles = st.indexedFiles
      ∧ (processFile resolve st input).skippedFiles = st.skippedFiles + 1 := by
  have hbeq : (row.hash == input.hash) = true := by simp [hhash]
  simp only [processFile, getOrCreateFile, hfind, hbeq, if_true,
    Bool.false_eq_true, not_false_iff]
  refine ⟨?_, ?_, ?_, ?_⟩ <;> trivial

theorem buildPhase_unchanged (resolve : Resolver) :
    ∀ (inputs : List FileInput) (st : IndexState),
      (∀ inp ∈ inputs, ∃ row : FileRow,
        st.db.files.find? (fun f => f.path == inp.path) = some row
          ∧ row.hash = inp.hash) →
      (inputs.foldl (processFile resolve) st).db = st.db
        ∧ (inputs.foldl (processFile resolve) st).fileImportMap = st.fileImportMap
        ∧ (inputs.foldl (processFile resolve) st).indexedFiles = st.indexedFiles
        ∧ (inputs.foldl (processFile resolve) st).skippedFiles
          = st.skippedFiles + inputs.length := by
  intro inputs
  induction inputs with
  | nil => intro st _; exact ⟨rfl, rfl, rfl, by simp⟩
  | cons inp rest ih =>
      intro st hall
      rw [List.foldl_cons]
      rcases hall inp (by simp) with ⟨row, hfind, hhash⟩
      have hstep := processFile_unchanged resolve st inp row hfind hhash
      have hall2 : ∀ i ∈ rest, ∃ row : FileRow,
          (processFile resolve st inp).db.files.find? (fun f => f.path == i.path)
            = some row ∧ row.hash = i.hash := by
        intro i hi
        rw [hstep.1]
        exact hall i (by simp [hi])
      have hrec := ih (processFile resolve st inp) hall2
      refine ⟨hrec.1.trans hstep.1, hrec.2.1.trans hstep.2.1,
        hrec.2.2.1.trans hstep.2.2.1, ?_⟩
      rw [hrec.2.2.2, hstep.2.2.2]
      simp [List.length_cons]
      omega

/-- C6 (amended).  A file whose stored digest equals its current digest is
reported unchanged (`changed = false`), counted as skipped, and not
re-parsed; an identical second full pass therefore re-parses zero files
(`indexedFiles = 0`, every file counted skipped) and leaves the whole
store — Files, Symbols, Edges, FileDeps and Rankings — unchanged (the
Rankings are recomputed from the same graph to the same rows).  The
rankings table, however, is rebuilt globally by every full index, so in a
run where other files changed, an unchanged file's Ranking rows are
regenerated and may change (see the counterexample). -/
theorem indexProject_unchanged_second_pass (resolve : Resolver)
    (inputs : List FileInput)
    (hnd : (inputs.map (fun i => i.path)).Nodup) :
    indexProject resolve inputs ((indexProject resolve inputs emptyDB).1)
      = ((indexProject resolve inputs emptyDB).1, 0, inputs.length) := by
  have hfiles1 : (buildPhase resolve inputs emptyDB).db.files = enumFiles 1 inputs := by
    have hb := (buildPhase_files resolve inputs (initIndexState emptyDB) hnd
      (by intro inp _ f hf; simp [initIndexState, emptyDB] at hf)).1
    simpa [buildPhase, initIndexState, emptyDB] using hb
  have hpaths1 : ∀ f ∈ (buildPhase resolve inputs emptyDB).db.files,
      f.path ∈ inputs.map (fun i => i.path) := by
    intro f hf
    rw [hfiles1] at hf
    rw [← enumFiles_map_path inputs 1]
    exact List.mem_map_of_mem _ hf
  have hrs1 : removeStaleFiles (buildPhase resolve inputs emptyDB).db
      (inputs.map (fun i => i.path)) = (buildPhase resolve inputs emptyDB).db :=
    removeStaleFiles_id _ _ hpaths1
  have hpre1 : preCrossState resolve inputs emptyDB = buildPhase resolve inputs emptyDB := by
    simp only [preCrossState]
    rw [hrs1]
  have hr1db : (indexProject resolve inputs emptyDB).1
      = computePageRank (crossFilePass (buildPhase resolve inputs emptyDB)) := by
    show indexProjectDB resolve inputs emptyDB = _
    rw [indexProjectDB_eq_phases, hpre1]
  have hfiles_r1 : (indexProject resolve inputs emptyDB).1.files = enumFiles 1 inputs := by
    rw [hr1db, (computePageRank_frame _).1,
      (crossFilePass_eqExceptEdges (buildPhase resolve inputs emptyDB)).1]
    exact hfiles1
  have hall : ∀ inp ∈ inputs, ∃ row : FileRow,
      (indexProject resolve inputs emptyDB).1.files.find?
        (fun f => f.path == inp.path) = some row ∧ row.hash = inp.hash := by
    intro inp hi
    rw [hfiles_r1]
    exact enumFiles_find inputs 1 inp hi hnd
  have hb2 : (buildPhase resolve inputs ((indexProject resolve inputs emptyDB).1)).db
        = (indexProject resolve inputs emptyDB).1
      ∧ (buildPhase resolve inputs ((indexProject resolve inputs emptyDB).1)).fileImportMap
        = []
      ∧ (buildPhase resolve inputs ((indexProject resolve inputs emptyDB).1)).indexedFiles
        = 0
      ∧ (buildPhase resolve inputs ((indexProject resolve inputs emptyDB).1)).skippedFiles
        = 0 + inputs.length :=
    buildPhase_unchanged resolve inputs
      (initIndexState ((indexProject resolve inputs emptyDB).1)) hall
  have hpaths2 : ∀ f ∈
      (buildPhase resolve inputs ((indexProject resolve inputs emptyDB).1)).db.files,
      f.path ∈ inputs.map (fun i => i.path) := by
    intro f hf
    have hdb2 : (buildPhase resolve inputs ((indexProject resolve inputs emptyDB).1)).db
        = (indexProject resolve inputs emptyDB).1 := hb2.1
    rw [hdb2, hfiles_r1] at hf
    rw [← enumFiles_map_path inputs 1]
    exact List.mem_map_of_mem _ hf
  have hrs2 : removeStaleFiles
      (buildPhase resolve inputs ((indexProject resolve inputs emptyDB).1)).db
      (inputs.map (fun i => i.path))
      = (buildPhase resolve inputs ((indexProject resolve inputs emptyDB).1)).db :=
    removeStaleFiles_id _ _ hpaths2
  have hmap2 : (preCrossState resolve inputs
      ((indexProject resolve inputs emptyDB).1)).fileImportMap = [] := by
    show (buildPhase resolve inputs ((indexProject resolve inputs emptyDB).1)).fileImportMap = []
    rw [hb2.2.1]
  have hcf2 : crossFilePass (preCrossState resolve inputs
      ((indexProject resolve inputs emptyDB).1))
      = (indexProject resolve inputs emptyDB).1 := by
    rw [crossFilePass_empty _ hmap2]
    show removeStaleFiles
      (buildPhase resolve inputs ((indexProject resolve inputs emptyDB).1)).db
      (inputs.map (fun i => i.path)) = _
    rw [hrs2, hb2.1]
  have hpr : computePageRank ((indexProject resolve inputs emptyDB).1)
      = (indexProject resolve inputs emptyDB).1 := by
    rw [hr1db]
    exact computePageRank_idem _
  have h1 : indexProjectDB resolve inputs ((indexProject resolve inputs emptyDB).1)
      = (indexProject resolve inputs emptyDB).1 := by
    rw [indexProjectDB_eq_phases, hcf2, hpr]
  have h2 : (buildPhase resolve inputs
      ((indexProject resolve inputs emptyDB).1)).indexedFiles = 0 := hb2.2.2.1
  have h3 : (buildPhase resolve inputs
      ((indexProject resolve inputs emptyDB).1)).skippedFiles = inputs.length := by
    rw [hb2.2.2.2]
    show 0 + inputs.length = inputs.length
    omega
  show (indexProjectDB resolve inputs ((indexProject resolve inputs emptyDB).1),
    (buildPhase resolve inputs ((indexProject resolve inputs emptyDB).1)).indexedFiles,
    (buildPhase resolve inputs ((indexProject resolve inputs emptyDB).1)).skippedFiles)
    = ((indexProject resolve inputs emptyDB).1, 0, inputs.length)
  rw [h1, h2, h3]

/-- A one-file repository with no symbols, for evaluating the idempotence
theorem. -/
def c6WitnessInputs : List FileInput :=
  [{ path := "a.ts", hash := "ha", symbols := [], imports := [], calls := [] }]

/-- Witness for C6 (amended): the concrete one-file run, hypotheses
discharged by evaluation. -/
theorem indexProject_unchanged_second_pass_witness :
    (c6WitnessInputs.map (fun i => i.path)).Nodup
      ∧ indexProject c2Resolve c6WitnessInputs
          ((indexProject c2Resolve c6WitnessInputs emptyDB).1)
        = ((indexProject c2Resolve c6WitnessInputs emptyDB).1, 0,
            c6WitnessInputs.length) :=
  ⟨by decide, indexProject_unchanged_second_pass c2Resolve c6WitnessInputs (by decide)⟩

/-- The resolver and inputs of the C6 counterexample: `a.ts` is unchanged
across the two runs; `b.ts` changes and starts importing `foo` from
`a.ts`. -/
def c6Resolve : Resolver := fun f s =>
  if f == "b.ts" && s == "./a" then some "a.ts" else none

def c6Run1 : List FileInput :=
  [{ path := "a.ts", hash := "ha",
     symbols := [{ name := "foo", qualifiedName := none, kind := "function",
                   exported := true }],
     imports := [], calls := [] },
   { path := "b.ts", hash := "hb1",
     symbols := [{ name := "bar", qualifiedName := none, kind := "function",
                   exported := true }],
     imports := [], calls := [] }]

def c6Run2 : List FileInput :=
  [{ path := "a.ts", hash := "ha",
     symbols := [{ name := "foo", qualifiedName := none, kind := "function",
                   exported := true }],
     imports := [], calls := [] },
   { path := "b.ts", hash := "hb2",
     symbols := [{ name := "bar", qualifiedName := none, kind := "function",
                   exported := true }],
     imports := [{ source := "./a", names := ["foo"] }], calls := [] }]

/-- Counterexample to C6 as stated: across the two runs `a.ts` keeps the
stored digest `ha` (it is reported unchanged in the second run), yet its
symbol's Ranking row is NOT kept — the second run's global PageRank pass
rebuilds the rankings table and the row of symbol 1 changes from in-degree
0 to in-degree 1. -/
theorem unchangedFile_ranking_not_kept_counterexample :
    (indexProjectDB c6Resolve c6Run1 emptyDB).files.find?
        (fun f => f.path == "a.ts")
      = some { id := 1, path := "a.ts", hash := "ha" }
      ∧ (indexProjectDB c6Resolve c6Run1 emptyDB).rankings.map
          (fun row => (row.symbolId, row.inDegree, row.outDegree))
        = [(1, 0, 0), (2, 0, 0)]
      ∧ (indexProjectDB c6Resolve c6Run2 (indexProjectDB c6Resolve c6Run1 emptyDB)).rankings.map
          (fun row => (row.symbolId, row.inDegree, row.outDegree))
        = [(1, 1, 0), (3, 0, 1)] := by
  refine ⟨by decide, by decide, by decide⟩

/-! ## Single-file re-index leaves only intra-file `calls` edges on the
re-parsed file (C10) -/

/-- The symbol rows the re-index inserts, with the AUTOINCREMENT ids they
receive. -/
def parsedRows (fileId startId : Nat) : List ParsedSymbol → List SymbolRow
  | [] => []
  | s :: rest =>
      { id := startId, fileId := fileId, name := s.name,
        qualifiedName := s.qualifiedName, kind := s.kind,
        exported := s.exported } :: parsedRows fileId (startId + 1) rest

theorem parsedRows_mem (fileId : Nat) :
    ∀ (syms : List ParsedSymbol) (startId : Nat) (r : SymbolRow),
      r ∈ parsedRows fileId startId syms →
      r.fileId = fileId ∧ startId ≤ r.id ∧ r.id < startId + syms.length := by
  intro syms
  induction syms with
  | nil => intro startId r h; cases h
  | cons s rest ih =>
      intro startId r h
      rcases List.mem_cons.mp h with heq | hmem
      · subst heq
        refine ⟨rfl, le_refl _, ?_⟩
        simp only [List.length_cons]
        omega
      · have := ih (startId + 1) r hmem
        refine ⟨this.1, by omega, ?_⟩
        simp only [List.length_cons]
        omega

theorem parsedRows_exists_id (fileId : Nat) :
    ∀ (syms : List ParsedSymbol) (startId i : Nat),
      startId ≤ i → i < startId + syms.length →
      ∃ r ∈ parsedRows fileId startId syms, r.id = i := by
  intro syms
  induction syms with
  | nil => intro startId i h1 h2; simp at h2; omega
  | cons s rest ih =>
      intro startId i h1 h2
      by_cases hi : i = startId
      · subst hi
        have hmem :
            ({ id := i, fileId := fileId, name := s.name,
               qualifiedName := s.qualifiedName, kind := s.kind,
               exported := s.exported } : SymbolRow)
              ∈ parsedRows fileId i (s :: rest) := by
          simp [parsedRows]
        exact ⟨_, hmem, rfl⟩
      · have h1' : startId + 1 ≤ i := by omega
        have h2' : i < startId + 1 + rest.length := by
          simp only [List.length_cons] at h2
          omega
        rcases ih (startId + 1) i h1' h2' with ⟨r, hr, hid⟩
        exact ⟨r, by simp [parsedRows, hr], hid⟩

theorem mapSet_mem {α : Type} :
    ∀ (m : List (String × α)) (k : String) (v : α) (x : String × α),
      x ∈ mapSet m k v → x ∈ m ∨ x = (k, v) := by
  intro m
  induction m with
  | nil =>
      intro k v x h
      simp [mapSet] at h
      exact Or.inr h
  | cons p rest ih =>
      intro k v x h
      unfold mapSet at h
      by_cases hk : p.1 == k
      · rw [if_pos (by cases p; exact hk)] at h
        rcases List.mem_cons.mp h with heq | hmem
        · exact Or.inr heq
        · exact Or.inl (List.mem_cons.mpr (Or.inr hmem))
      · rw [if_neg (by cases p; exact hk)] at h
        rcases List.mem_cons.mp h with heq | hmem
        · exact Or.inl (by simp [heq])
        · rcases ih k v x hmem with h1 | h2
          · exact Or.inl (by simp [h1])
          · exact Or.inr h2

theorem mapGet_mem {α : Type} :
    ∀ (m : List (String × α)) (k : String) (v : α),
      mapGet m k = some v → (k, v) ∈ m := by
  intro m
  induction m with
  | nil => intro k v h; simp [mapGet] at h
  | cons p rest ih =>
      intro k v h
      obtain ⟨a, b⟩ := p
      unfold mapGet at h
      by_cases hk : a == k
      · rw [if_pos hk] at h
        simp only [Option.some.injEq] at h
        have ha : a = k := by simpa using hk
        subst ha
        subst h
        simp
      · rw [if_neg hk] at h
        exact List.mem_cons.mpr (Or.inr (ih k v h))

/-- The symbol-insert fold appends exactly the enumerated rows, advances
the id counter, and keys the table only with the fresh ids. -/
theorem insertParsedSymbols_spec (fileId : Nat) :
    ∀ (syms : List ParsedSymbol) (p : DB × SymTable),
      (syms.foldl (insertSymbolsStep fileId) p).1.symbols
          = p.1.symbols ++ parsedRows fileId p.1.nextSymbolId syms
        ∧ (syms.foldl (insertSymbolsStep fileId) p).1.nextSymbolId
          = p.1.nextSymbolId + syms.length
        ∧ (∀ x ∈ (syms.foldl (insertSymbolsStep fileId) p).2,
            x ∈ p.2 ∨ (p.1.nextSymbolId ≤ x.2
              ∧ x.2 < p.1.nextSymbolId + syms.length)) := by
  intro syms
  induction syms with
  | nil =>
      intro p
      refine ⟨by simp [parsedRows], by simp, fun x hx => Or.inl hx⟩
  | cons s rest ih =>
      intro p
      rw [List.foldl_cons]
      have hstep_symbols : (insertSymbolsStep fileId p s).1.symbols
          = p.1.symbols ++
            [{ id := p.1.nextSymbolId, fileId := fileId, name := s.name,
               qualifiedName := s.qualifiedName, kind := s.kind,
               exported := s.exported }] := rfl
      have hstep_next : (insertSymbolsStep fileId p s).1.nextSymbolId
          = p.1.nextSymbolId + 1 := rfl
      have hrec := ih (insertSymbolsStep fileId p s)
      refine ⟨?_, ?_, ?_⟩
      · rw [hrec.1, hstep_symbols, hstep_next]
        simp [parsedRows]
      · rw [hrec.2.1, hstep_next]
        simp only [List.length_cons]
        omega
      · intro x hx
        rcases hrec.2.2 x hx with hold | hfresh
        · -- x is in the table after one step
          have htab : (insertSymbolsStep fileId p s).2
              = (match s.qualifiedName with
                 | some q => mapSet (mapSet p.2 s.name p.1.nextSymbolId) q p.1.nextSymbolId
                 | none => mapSet p.2 s.name p.1.nextSymbolId) := rfl
          rw [htab] at hold
          have hcore : x ∈ mapSet p.2 s.name p.1.nextSymbolId ∨ x.2 = p.1.nextSymbolId := by
            cases hq : s.qualifiedName with
            | none => rw [hq] at hold; exact Or.inl hold
            | some q =>
                rw [hq] at hold
                rcases mapSet_mem _ q p.1.nextSymbolId x hold with h1 | h2
                · exact Or.inl h1
                · exact Or.inr (by rw [h2])
          rcases hcore with h1 | h2
          · rcases mapSet_mem p.2 s.name p.1.nextSymbolId x h1 with h3 | h4
            · exact Or.inl h3
            · refine Or.inr ⟨by rw [h4], ?_⟩
              rw [h4]
              simp only [List.length_cons]
              omega
          · refine Or.inr ⟨by omega, ?_⟩
            simp only [List.length_cons]
            omega
        · rw [hstep_next] at hfresh
          refine Or.inr ⟨by omega, ?_⟩
          simp only [List.length_cons]
          omega

theorem insertEdge_mem_inv (db : DB) (a b : Nat) (k : String) (e : EdgeRow)
    (h : e ∈ (insertEdge db a b k).edges) :
    e ∈ db.edges ∨ e = { fromId := a, toId := b, kind := k } := by
  unfold insertEdge at h
  split at h
  · exact Or.inl h
  · rcases List.mem_append.mp h with h1 | h2
    · exact Or.inl h1
    · exact Or.inr (by simpa using h2)

theorem processCalls_mem_inv (table : SymTable) :
    ∀ (calls : List ParsedCall) (db : DB) (e : EdgeRow),
      e ∈ (calls.foldl (callStep table) db).edges →
      e ∈ db.edges
        ∨ (e.kind = "calls" ∧ (∃ kk, (kk, e.fromId) ∈ table)
            ∧ (∃ kk, (kk, e.toId) ∈ table)) := by
  intro calls
  induction calls with
  | nil => intro db e h; exact Or.inl h
  | cons c rest ih =>
      intro db e h
      rw [List.foldl_cons] at h
      rcases ih (callStep table db c) e h with h1 | h2
      · -- invert the single step
        unfold callStep at h1
        cases hc1 : mapGet table c.callerSymbol with
        | none => rw [hc1] at h1; exact Or.inl h1
        | some callerId =>
            cases hc2 : mapGet table c.calledName with
            | none => rw [hc1, hc2] at h1; exact Or.inl h1
            | some calledId =>
                rw [hc1, hc2] at h1
                dsimp only at h1
                by_cases hne : callerId ≠ calledId
                · rw [if_pos hne] at h1
                  rcases insertEdge_mem_inv db callerId calledId "calls" e h1 with h3 | h4
                  · exact Or.inl h3
                  · subst h4
                    exact Or.inr ⟨rfl, ⟨c.callerSymbol, mapGet_mem table c.callerSymbol callerId hc1⟩,
                      ⟨c.calledName, mapGet_mem table c.calledName calledId hc2⟩⟩
                · rw [if_neg hne] at h1
                  exact Or.inl h1
      · exact Or.inr h2

/-- C10.  After `reindexFile` on an existing file whose digest changed,
every edge incident to one of that file's (new) symbols is an intra-file
`calls` edge between two symbols of the same file: `clear_file_data`
removed every old edge touching the file (including all cross-file
`references` edges), and the re-index inserts only intra-file `calls`
edges, so no cross-file edge touches the file until the next full
index. -/
theorem reindexFile_edges_intra_only (resolve : Resolver) (db : DB)
    (input : FileInput) (row : FileRow) (e : EdgeRow)
    (hwf_lt : ∀ s ∈ db.symbols, s.id < db.nextSymbolId)
    (hwf_edge : ∀ ed ∈ db.edges, (∃ s ∈ db.symbols, s.id = ed.fromId)
      ∧ (∃ s ∈ db.symbols, s.id = ed.toId))
    (hfind : db.files.find? (fun f => f.path == input.path) = some row)
    (hchanged : row.hash ≠ input.hash)
    (he : e ∈ (reindexFileExisting resolve db input).edges)
    (htouch : ∃ s ∈ (reindexFileExisting resolve db input).symbols,
      s.fileId = row.id ∧ (s.id = e.fromId ∨ s.id = e.toId)) :
    e.kind = "calls"
      ∧ (∃ s ∈ (reindexFileExisting resolve db input).symbols,
          s.fileId = row.id ∧ s.id = e.fromId)
      ∧ (∃ s ∈ (reindexFileExisting resolve db input).symbols,
          s.fileId = row.id ∧ s.id = e.toId) := by
  have hbeq : (row.hash == input.hash) = false := by simp [hchanged]
  -- name the pipeline stages
  have hre : reindexFileExisting resolve db input
      = processCalls
          (processImports resolve
            (insertParsedSymbols
              (clearFileData
                { db with files := db.files.map (fun g =>
                    if g.id == row.id then { g with hash := input.hash } else g) }
                row.id)
              row.id input.symbols).1
            row.id input.path input.imports).1
          (insertParsedSymbols
            (clearFileData
              { db with files := db.files.map (fun g =>
                  if g.id == row.id then { g with hash := input.hash } else g) }
              row.id)
            row.id input.symbols).2
          input.calls := by
    simp only [reindexFileExisting, getOrCreateFile, hfind, hbeq,
      Bool.false_eq_true, if_false, not_true, Bool.true_eq_false, ite_false]
  set db1 : DB := { db with files := db.files.map (fun g =>
      if g.id == row.id then { g with hash := input.hash } else g) } with hdb1
  set db2 : DB := clearFileData db1 row.id with hdb2
  have hdb2syms : db2.symbols = db.symbols.filter (fun s => ¬ s.fileId == row.id) := rfl
  have hdb2next : db2.nextSymbolId = db.nextSymbolId := rfl
  have hins := insertParsedSymbols_spec row.id input.symbols (db2, [])
  have hfinal_syms : (reindexFileExisting resolve db input).symbols
      = db2.symbols ++ parsedRows row.id db.nextSymbolId input.symbols := by
    rw [hre]
    rw [(processCalls_frame2 _ _ _).2.1, (processImports_frame2 resolve _ _ _ _).2.1]
    show (insertParsedSymbols db2 row.id input.symbols).1.symbols = _
    unfold insertParsedSymbols
    rw [hins.1, hdb2next]
  have hfinal_edges : ∀ ed, ed ∈ (reindexFileExisting resolve db input).edges →
      ed ∈ db2.edges
        ∨ (ed.kind = "calls"
            ∧ (∃ kk, (kk, ed.fromId) ∈ (insertParsedSymbols db2 row.id input.symbols).2)
            ∧ (∃ kk, (kk, ed.toId) ∈ (insertParsedSymbols db2 row.id input.symbols).2)) := by
    intro ed hed
    rw [hre] at hed
    have := processCalls_mem_inv (insertParsedSymbols db2 row.id input.symbols).2
      input.calls
      (processImports resolve (insertParsedSymbols db2 row.id input.symbols).1
        row.id input.path input.imports).1 ed hed
    rcases this with h1 | h2
    · rw [(processImports_frame2 resolve _ _ _ _).2.2.1] at h1
      left
      have hq : (insertParsedSymbols db2 row.id input.symbols).1.edges = db2.edges :=
        (insertParsedSymbols_frame2 _ _ _).2.1
      rw [hq] at h1
      exact h1
    · exact Or.inr h2
  -- fresh ids: every table entry is at least db.nextSymbolId
  have htable : ∀ x ∈ (insertParsedSymbols db2 row.id input.symbols).2,
      db.nextSymbolId ≤ x.2 ∧ x.2 < db.nextSymbolId + input.symbols.length := by
    intro x hx
    have := hins.2.2 x (by
      show x ∈ (List.foldl (insertSymbolsStep row.id) (db2, ([] : SymTable)) input.symbols).2
      exact hx)
    rcases this with h1 | h2
    · cases h1
    · rw [hdb2next] at h2
      exact h2
  -- a file symbol in the final state has a fresh id
  have hfile_fresh : ∀ s ∈ (reindexFileExisting resolve db input).symbols,
      s.fileId = row.id → db.nextSymbolId ≤ s.id := by
    intro s hs hfid
    rw [hfinal_syms] at hs
    rcases List.mem_append.mp hs with hold | hnew
    · rw [hdb2syms] at hold
      have := List.of_mem_filter hold
      simp [hfid] at this
    · exact (parsedRows_mem row.id input.symbols db.nextSymbolId s hnew).2.1
  rcases hfinal_edges e he with hold | hnew
  · -- an old kept edge cannot touch a file symbol: old endpoints are stale ids
    exfalso
    have hmem : e ∈ db.edges := by
      rw [hdb2] at hold
      have : e ∈ db1.edges := List.mem_of_mem_filter hold
      exact this
    rcases htouch with ⟨s, hs, hfid, heq⟩
    have hge := hfile_fresh s hs hfid
    rcases hwf_edge e hmem with ⟨⟨sf, hsf, hsfid⟩, ⟨st2, hst2, hst2id⟩⟩
    rcases heq with h1 | h1
    · have := hwf_lt sf hsf
      omega
    · have := hwf_lt st2 hst2
      omega
  · -- a fresh `calls` edge: both endpoints are the file's new symbols
    rcases hnew with ⟨hkind, ⟨k1, hk1⟩, ⟨k2, hk2⟩⟩
    have hf1 := htable (k1, e.fromId) hk1
    have hf2 := htable (k2, e.toId) hk2
    refine ⟨hkind, ?_, ?_⟩
    · rcases parsedRows_exists_id row.id input.symbols db.nextSymbolId e.fromId
        hf1.1 hf1.2 with ⟨r, hr, hid⟩
      refine ⟨r, ?_, (parsedRows_mem row.id input.symbols db.nextSymbolId r hr).1, hid⟩
      rw [hfinal_syms]
      exact List.mem_append_right _ hr
    · rcases parsedRows_exists_id row.id input.symbols db.nextSymbolId e.toId
        hf2.1 hf2.2 with ⟨r, hr, hid⟩
      refine ⟨r, ?_, (parsedRows_mem row.id input.symbols db.nextSymbolId r hr).1, hid⟩
      rw [hfinal_syms]
      exact List.mem_append_right _ hr

/-- A two-file store in which `b.ts`'s symbol references `a.ts`'s old
symbol, and a changed `a.ts` with two symbols and one intra-file call. -/
def c10DB : DB :=
  { files := [{ id := 1, path := "a.ts", hash := "h1" },
              { id := 2, path := "b.ts", hash := "h2" }],
    symbols := [{ id := 1, fileId := 1, name := "old", qualifiedName := none,
                  kind := "function", exported := true },
                { id := 2, fileId := 2, name := "other", qualifiedName := none,
                  kind := "function", exported := true }],
    edges := [{ fromId := 2, toId := 1, kind := "references" }],
    fileDeps := [], rankings := [],
    nextFileId := 3, nextSymbolId := 3 }

def c10Input : FileInput :=
  { path := "a.ts", hash := "h1b",
    symbols := [{ name := "f", qualifiedName := none, kind := "function",
                  exported := true },
                { name := "g", qualifiedName := none, kind := "function",
                  exported := true }],
    imports := [],
    calls := [{ callerSymbol := "f", calledName := "g" }] }

/-- Witness for C10: the re-indexed `a.ts` carries one edge (the new
intra-file call, ids 3 to 4), and the theorem applies to it with every
hypothesis discharged by evaluation. -/
theorem reindexFile_edges_intra_only_witness :
    ({ fromId := 3, toId := 4, kind := "calls" } : EdgeRow).kind = "calls"
      ∧ (∃ s ∈ (reindexFileExisting c2Resolve c10DB c10Input).symbols,
          s.fileId = ({ id := 1, path := "a.ts", hash := "h1" } : FileRow).id
            ∧ s.id = ({ fromId := 3, toId := 4, kind := "calls" } : EdgeRow).fromId)
      ∧ (∃ s ∈ (reindexFileExisting c2Resolve c10DB c10Input).symbols,
          s.fileId = ({ id := 1, path := "a.ts", hash := "h1" } : FileRow).id
            ∧ s.id = ({ fromId := 3, toId := 4, kind := "calls" } : EdgeRow).toId) :=
  reindexFile_edges_intra_only c2Resolve c10DB c10Input
    { id := 1, path := "a.ts", hash := "h1" }
    { fromId := 3, toId := 4, kind := "calls" }
    (by decide) (by decide) (by decide) (by decide) (by decide) (by decide)

end Codex
